import Mathlib

/-!
Verification of the classical-cipher library `Security_Assignment.py`.

Texts are modelled as lists of character codes (`List ℕ`, Unicode code
points restricted to ASCII where the claims say so); Python `ord`/`chr`
are then the identity.  Python integers are `ℤ`; the Python `%` on a
positive modulus agrees with `Int.emod`.  Each cipher is translated
function by function from the source.  The helper `codes` turns a list of
character literals into the corresponding code list for concrete
scenarios.
-/

/-- Character codes of a list of characters (for concrete test vectors). -/
def codes (s : List Char) : List ℕ := s.map Char.toNat

/-- Python `str.upper` on an ASCII code point. -/
def upperCode (c : ℕ) : ℕ := if 97 ≤ c ∧ c ≤ 122 then c - 32 else c

/-- Python `str.lower` on an ASCII code point. -/
def lowerCode (c : ℕ) : ℕ := if 65 ≤ c ∧ c ≤ 90 then c + 32 else c

/-- Python `str.isalpha` on an ASCII code point. -/
def isAlphaCode (c : ℕ) : Bool := (65 ≤ c ∧ c ≤ 90) ∨ (97 ≤ c ∧ c ≤ 122)

/-- Python `str.rstrip("X")`: remove every trailing code 88 (letter X). -/
def rstripX (l : List ℕ) : List ℕ := (l.reverse.dropWhile (fun c => c == 88)).reverse

-- ---------------- Utility Function ----------------

/-- `mod_inv(a, m)` from the source: reduce `a` mod `m`, then scan
`x = 1, …, m-1` for the first `x` with `(a*x) % m == 1`; `none` when the
scan fails (Python returns `None`). -/
def mod_inv (a m : ℤ) : Option ℤ :=
  let a' := a % m
  ((List.range (m - 1).toNat).map (fun i : ℕ => (i : ℤ) + 1)).find? (fun x => (a' * x) % m == 1)

lemma emod_mul_left_emod (a x m : ℤ) : (a % m * x) % m = (a * x) % m :=
  Int.ModEq.mul_right x (Int.emod_emod_of_dvd a (dvd_refl m))

lemma mem_modInvRange {m : ℤ} {x : ℤ} :
    x ∈ (List.range (m - 1).toNat).map (fun i : ℕ => (i : ℤ) + 1) ↔ 1 ≤ x ∧ x < m := by
  simp only [List.mem_map, List.mem_range]
  constructor
  · rintro ⟨i, hi, rfl⟩
    omega
  · rintro ⟨h1, h2⟩
    refine ⟨(x - 1).toNat, by omega, ?_⟩
    omega

lemma modInv_spec_of_eq_some {a m x : ℤ} (h : mod_inv a m = some x) :
    1 ≤ x ∧ x < m ∧ (a * x) % m = 1 := by
  unfold mod_inv at h
  have hmem := List.mem_of_find?_eq_some h
  have hpred := List.find?_some h
  have hx := mem_modInvRange.mp hmem
  refine ⟨hx.1, hx.2, ?_⟩
  have h1 : (a % m * x) % m = 1 := by
    simpa using hpred
  rw [← emod_mul_left_emod]
  exact h1

lemma modInv_isSome {a m : ℤ} (hm : 2 ≤ m) (h : Int.gcd a m = 1) :
    ∃ x, mod_inv a m = some x := by
  -- Bezout gives a witness in `[1, m)`, so the scan cannot fail.
  have hb : (1 : ℤ) = a * Int.gcdA a m + m * Int.gcdB a m := by
    have := Int.gcd_eq_gcd_ab a m
    rw [h] at this
    simpa using this
  set x0 := Int.gcdA a m % m with hx0
  have hm0 : (m : ℤ) ≠ 0 := by omega
  have hx0nn : 0 ≤ x0 := Int.emod_nonneg _ hm0
  have hx0lt : x0 < m := Int.emod_lt_of_pos _ (by omega)
  have hmod : (a * x0) % m = 1 % m := by
    have h1 : a * x0 ≡ a * Int.gcdA a m [ZMOD m] := by
      exact Int.ModEq.mul_left a (Int.emod_emod_of_dvd _ (dvd_refl m))
    have h2 : a * Int.gcdA a m ≡ 1 [ZMOD m] := by
      have : (1 : ℤ) - a * Int.gcdA a m = m * Int.gcdB a m := by linarith
      have hd : (m : ℤ) ∣ 1 - a * Int.gcdA a m := ⟨Int.gcdB a m, this⟩
      exact Int.modEq_iff_dvd.mpr hd
    exact h1.trans h2
  have h1m : (1 : ℤ) % m = 1 := Int.emod_eq_of_lt (by omega) (by omega)
  rw [h1m] at hmod
  have hx0pos : 1 ≤ x0 := by
    rcases eq_or_lt_of_le hx0nn with heq | hlt
    · exfalso
      rw [← heq] at hmod
      simp at hmod
    · omega
  have hsome : (mod_inv a m).isSome := by
    unfold mod_inv
    rw [List.find?_isSome]
    refine ⟨x0, mem_modInvRange.mpr ⟨hx0pos, hx0lt⟩, ?_⟩
    simp only [beq_iff_eq]
    rw [emod_mul_left_emod, hmod]
  exact Option.isSome_iff_exists.mp hsome

lemma modInv_none_of_gcd_ne_one {a m : ℤ} (h : Int.gcd a m ≠ 1) :
    mod_inv a m = none := by
  unfold mod_inv
  rw [List.find?_eq_none]
  intro x _ hpred
  simp only [beq_iff_eq] at hpred
  have hmod : (a * x) % m = 1 := by
    rw [← emod_mul_left_emod]
    exact hpred
  -- then gcd a m divides 1
  have hd : ((Int.gcd a m : ℤ)) ∣ 1 := by
    have hdiv : a * x % m = a * x - m * (a * x / m) := by
      have := Int.ediv_add_emod (a * x) m
      linarith
    have h1 : (1 : ℤ) = a * x - m * (a * x / m) := by rw [← hdiv, hmod]
    have hga : ((Int.gcd a m : ℤ)) ∣ a := Int.gcd_dvd_left
    have hgm : ((Int.gcd a m : ℤ)) ∣ m := Int.gcd_dvd_right
    rw [h1]
    exact dvd_sub (hga.mul_right x) (hgm.mul_right _)
  have hone : Int.gcd a m ∣ 1 := by
    have := Int.natCast_dvd_natCast.mp (by simpa using hd)
    simpa using this
  exact h (Nat.dvd_one.mp hone)

/-- C6: for a modulus `m ≥ 2`, `mod_inv` returns the unique inverse in
`[1, m)` when `gcd(a, m) = 1`, and `none` (the model of Python `None`)
when `gcd(a, m) ≠ 1`. -/
theorem claim_C6 (a m : ℤ) (hm : 2 ≤ m) :
    (Int.gcd a m = 1 →
      ∃ x, mod_inv a m = some x ∧ 1 ≤ x ∧ x < m ∧ (a * x) % m = 1 ∧
        ∀ y, 1 ≤ y → y < m → (a * y) % m = 1 → y = x) ∧
    (Int.gcd a m ≠ 1 → mod_inv a m = none) := by
  constructor
  · intro hgcd
    obtain ⟨x, hx⟩ := modInv_isSome hm hgcd
    obtain ⟨h1, h2, h3⟩ := modInv_spec_of_eq_some hx
    refine ⟨x, hx, h1, h2, h3, ?_⟩
    intro y hy1 hy2 hy3
    -- y = y * (a*x) = (a*y) * x = x modulo m, and both lie in [1, m)
    have hyx : y ≡ x [ZMOD m] := by
      calc y ≡ y * ((a * x) % m) [ZMOD m] := by rw [h3]; simp
        _ ≡ y * (a * x) [ZMOD m] := Int.ModEq.mul_left y (Int.emod_emod_of_dvd _ (dvd_refl m))
        _ = (a * y) * x := by ring
        _ ≡ ((a * y) % m) * x [ZMOD m] :=
            Int.ModEq.mul_right x (Int.emod_emod_of_dvd _ (dvd_refl m)).symm
        _ = 1 * x := by rw [hy3]
        _ = x := by ring
    have : y % m = x % m := hyx
    rw [Int.emod_eq_of_lt (by omega) hy2, Int.emod_eq_of_lt (by omega) h2] at this
    exact this
  · exact modInv_none_of_gcd_ne_one

/-- C6 witness: modulus 26, `a = 3` has the inverse 9; `a = 13` has none. -/
theorem claim_C6_witness :
    (∃ x, mod_inv 3 26 = some x ∧ 1 ≤ x ∧ x < 26 ∧ (3 * x) % 26 = 1 ∧
      ∀ y, 1 ≤ y → y < 26 → (3 * y) % 26 = 1 → y = x) ∧ mod_inv 13 26 = none :=
  ⟨(claim_C6 3 26 (by norm_num)).1 (by decide),
   (claim_C6 13 26 (by norm_num)).2 (by decide)⟩

-- ======================= SUBSTITUTION CIPHERS ===========================

-- ---------------- Additive (Shift) Cipher ----------------

/-- Per-character transform of `additive_encrypt`: shift a letter code by
`key` positions mod 26, pass anything else through. -/
def shiftChar (key : ℤ) (c : ℕ) : ℕ :=
  if 65 ≤ c ∧ c ≤ 90 then (((c : ℤ) - 65 + key) % 26 + 65).toNat else c

def additive_encrypt (text : List ℕ) (key : ℤ) : List ℕ :=
  (text.map upperCode).map (shiftChar key)

def additive_decrypt (text : List ℕ) (key : ℤ) : List ℕ :=
  additive_encrypt text (-key)

-- ---------------- Multiplicative Cipher ----------------

/-- Per-character transform shared by `multiplicative_encrypt` (with the
key) and `multiplicative_decrypt` (with the inverse of the key). -/
def mulChar (k : ℤ) (c : ℕ) : ℕ :=
  if 65 ≤ c ∧ c ≤ 90 then ((((c : ℤ) - 65) * k) % 26 + 65).toNat else c

/-- `multiplicative_encrypt`; the source prints a diagnostic and returns
the empty string when the key is not coprime with 26. -/
def multiplicative_encrypt (text : List ℕ) (key : ℤ) : List ℕ :=
  if Int.gcd key 26 ≠ 1 then [] else (text.map upperCode).map (mulChar key)

def multiplicative_decrypt (text : List ℕ) (key : ℤ) : List ℕ :=
  if Int.gcd key 26 ≠ 1 then []
  else
    match mod_inv key 26 with
    | none => []
    | some inverse => (text.map upperCode).map (mulChar inverse)

-- ---------------- Affine Cipher ----------------

def affineChar (a b : ℤ) (c : ℕ) : ℕ :=
  if 65 ≤ c ∧ c ≤ 90 then ((a * ((c : ℤ) - 65) + b) % 26 + 65).toNat else c

def affine_encrypt (text : List ℕ) (a b : ℤ) : List ℕ :=
  if Int.gcd a 26 ≠ 1 then [] else (text.map upperCode).map (affineChar a b)

/-- Per-character transform of `affine_decrypt`:
`(inverse * ((c - 65) - b)) % 26 + 65`. -/
def affineDecChar (inverse b : ℤ) (c : ℕ) : ℕ :=
  if 65 ≤ c ∧ c ≤ 90 then ((inverse * (((c : ℤ) - 65) - b)) % 26 + 65).toNat else c

def affine_decrypt (text : List ℕ) (a b : ℤ) : List ℕ :=
  if Int.gcd a 26 ≠ 1 then []
  else
    match mod_inv a 26 with
    | none => []
    | some inverse => (text.map upperCode).map (affineDecChar inverse b)

-- ---------------- Hill Cipher (2x2 Key Matrix) ----------------

/-- Consecutive pairs `text[i:i+2]` of a list (a lone trailing element is
dropped; the source only reaches that case on malformed odd-length
ciphertext, where Python would raise). -/
def hillPairs : List ℕ → List (ℕ × ℕ)
  | a :: b :: rest => (a, b) :: hillPairs rest
  | _ => []

/-- Uppercased alphabetic characters of the input, as in the source
comprehension `c for c in plaintext.upper() if c.isalpha()`. -/
def hillLetters (text : List ℕ) : List ℕ :=
  (text.map upperCode).filter isAlphaCode

/-- The filtered text padded with `'X'` (code 88) when of odd length. -/
def hillPad (text : List ℕ) : List ℕ :=
  let t := hillLetters text
  if t.length % 2 = 1 then t ++ [88] else t

/-- One output code of a Hill block step: one matrix row applied to the
value vector `(p.1 - 65, p.2 - 65)` mod 26, re-encoded as a letter. -/
def hillPairFst (m0 m1 : ℤ) (p : ℕ × ℕ) : ℕ :=
  ((m0 * ((p.1 : ℤ) - 65) + m1 * ((p.2 : ℤ) - 65)) % 26 + 65).toNat

/-- One block step of the Hill cipher: multiply the value vector of a
code pair by a 2x2 matrix mod 26 and re-encode as two letter codes.  The
source uses the same loop body for encryption and (with the inverse
matrix) for decryption. -/
def hillEncPair (m00 m01 m10 m11 : ℤ) (p : ℕ × ℕ) : List ℕ :=
  [hillPairFst m00 m01 p, hillPairFst m10 m11 p]

def hill_encrypt (text : List ℕ) (m00 m01 m10 m11 : ℤ) : List ℕ :=
  (hillPairs (hillPad text)).flatMap (hillEncPair m00 m01 m10 m11)

def hill_decrypt (text : List ℕ) (m00 m01 m10 m11 : ℤ) : List ℕ :=
  let det := (m00 * m11 - m01 * m10) % 26
  match mod_inv det 26 with
  | none => []
  | some inv_det =>
      (hillPairs ((text.map upperCode).filter isAlphaCode)).flatMap
        (hillEncPair ((m11 * inv_det) % 26) ((-m01 * inv_det) % 26)
          ((-m10 * inv_det) % 26) ((m00 * inv_det) % 26))

-- Arithmetic cores of the substitution round trips.

lemma emod_self_modEq (x : ℤ) : x % 26 ≡ x [ZMOD 26] :=
  Int.emod_emod_of_dvd x (dvd_refl 26)

lemma mul_inv_emod_core (p k v : ℤ) (hp : 0 ≤ p) (hp26 : p < 26)
    (h : (k * v) % 26 = 1) : (p * k % 26 * v) % 26 = p := by
  rw [emod_mul_left_emod]
  have h2 : (p * k * v) % 26 = (p * (k * v)) % 26 := by ring_nf
  rw [h2, Int.mul_emod, h, mul_one, Int.emod_emod_of_dvd _ (dvd_refl _),
    Int.emod_eq_of_lt hp hp26]

lemma affine_inv_emod_core (p a b v : ℤ) (hp : 0 ≤ p) (hp26 : p < 26)
    (h : (a * v) % 26 = 1) : (v * ((a * p + b) % 26 - b)) % 26 = p := by
  have h1 : v * ((a * p + b) % 26 - b) ≡ v * (a * p + b - b) [ZMOD 26] :=
    Int.ModEq.mul_left v ((emod_self_modEq (a * p + b)).sub_right b)
  have h2 : v * (a * p + b - b) = p * (a * v) := by ring
  have h3 : p * (a * v) ≡ p * 1 [ZMOD 26] := by
    refine Int.ModEq.mul_left p ?_
    show (a * v) % 26 = 1 % 26
    rw [h]
    rfl
  have : v * ((a * p + b) % 26 - b) ≡ p [ZMOD 26] := by
    calc v * ((a * p + b) % 26 - b) ≡ v * (a * p + b - b) [ZMOD 26] := h1
      _ = p * (a * v) := h2
      _ ≡ p * 1 [ZMOD 26] := h3
      _ = p := by ring
  have heq : (v * ((a * p + b) % 26 - b)) % 26 = p % 26 := this
  rw [heq, Int.emod_eq_of_lt hp hp26]

lemma hill_inv_emod_core (m00 m01 m10 m11 v0 v1 d : ℤ)
    (h0 : 0 ≤ v0) (h0' : v0 < 26) (h1 : 0 ≤ v1) (h1' : v1 < 26)
    (hd : ((m00 * m11 - m01 * m10) * d) % 26 = 1) :
    (m11 * d % 26 * ((m00 * v0 + m01 * v1) % 26) +
      -m01 * d % 26 * ((m10 * v0 + m11 * v1) % 26)) % 26 = v0 ∧
    (-m10 * d % 26 * ((m00 * v0 + m01 * v1) % 26) +
      m00 * d % 26 * ((m10 * v0 + m11 * v1) % 26)) % 26 = v1 := by
  have hdet : (m00 * m11 - m01 * m10) * d ≡ 1 [ZMOD 26] := by
    show ((m00 * m11 - m01 * m10) * d) % 26 = 1 % 26
    rw [hd]
    rfl
  constructor
  · have hc : m11 * d % 26 * ((m00 * v0 + m01 * v1) % 26) +
        -m01 * d % 26 * ((m10 * v0 + m11 * v1) % 26) ≡
        m11 * d * (m00 * v0 + m01 * v1) + -m01 * d * (m10 * v0 + m11 * v1) [ZMOD 26] :=
      ((emod_self_modEq (m11 * d)).mul (emod_self_modEq _)).add
        ((emod_self_modEq (-m01 * d)).mul (emod_self_modEq _))
    have hr : m11 * d * (m00 * v0 + m01 * v1) + -m01 * d * (m10 * v0 + m11 * v1) =
        (m00 * m11 - m01 * m10) * d * v0 := by ring
    have hv : (m00 * m11 - m01 * m10) * d * v0 ≡ 1 * v0 [ZMOD 26] :=
      Int.ModEq.mul_right v0 hdet
    have hall : m11 * d % 26 * ((m00 * v0 + m01 * v1) % 26) +
        -m01 * d % 26 * ((m10 * v0 + m11 * v1) % 26) ≡ v0 [ZMOD 26] := by
      calc _ ≡ m11 * d * (m00 * v0 + m01 * v1) +
            -m01 * d * (m10 * v0 + m11 * v1) [ZMOD 26] := hc
        _ = (m00 * m11 - m01 * m10) * d * v0 := hr
        _ ≡ 1 * v0 [ZMOD 26] := hv
        _ = v0 := by ring
    have heq : (m11 * d % 26 * ((m00 * v0 + m01 * v1) % 26) +
        -m01 * d % 26 * ((m10 * v0 + m11 * v1) % 26)) % 26 = v0 % 26 := hall
    rw [heq, Int.emod_eq_of_lt h0 h0']
  · have hc : -m10 * d % 26 * ((m00 * v0 + m01 * v1) % 26) +
        m00 * d % 26 * ((m10 * v0 + m11 * v1) % 26) ≡
        -m10 * d * (m00 * v0 + m01 * v1) + m00 * d * (m10 * v0 + m11 * v1) [ZMOD 26] :=
      ((emod_self_modEq (-m10 * d)).mul (emod_self_modEq _)).add
        ((emod_self_modEq (m00 * d)).mul (emod_self_modEq _))
    have hr : -m10 * d * (m00 * v0 + m01 * v1) + m00 * d * (m10 * v0 + m11 * v1) =
        (m00 * m11 - m01 * m10) * d * v1 := by ring
    have hv : (m00 * m11 - m01 * m10) * d * v1 ≡ 1 * v1 [ZMOD 26] :=
      Int.ModEq.mul_right v1 hdet
    have hall : -m10 * d % 26 * ((m00 * v0 + m01 * v1) % 26) +
        m00 * d % 26 * ((m10 * v0 + m11 * v1) % 26) ≡ v1 [ZMOD 26] := by
      calc _ ≡ -m10 * d * (m00 * v0 + m01 * v1) +
            m00 * d * (m10 * v0 + m11 * v1) [ZMOD 26] := hc
        _ = (m00 * m11 - m01 * m10) * d * v1 := hr
        _ ≡ 1 * v1 [ZMOD 26] := hv
        _ = v1 := by ring
    have heq : (-m10 * d % 26 * ((m00 * v0 + m01 * v1) % 26) +
        m00 * d % 26 * ((m10 * v0 + m11 * v1) % 26)) % 26 = v1 % 26 := hall
    rw [heq, Int.emod_eq_of_lt h1 h1']

-- Per-character facts about the substitution transforms.

lemma upperCode_idem (c : ℕ) : upperCode (upperCode c) = upperCode c := by
  unfold upperCode
  split_ifs <;> omega

lemma upperCode_not_lower (c : ℕ) : ¬(97 ≤ upperCode c ∧ upperCode c ≤ 122) := by
  unfold upperCode
  split_ifs <;> omega

lemma upperCode_upper_of (c : ℕ) (h : 65 ≤ c ∧ c ≤ 90) : upperCode c = c := by
  unfold upperCode
  rw [if_neg]
  omega

lemma additive_char (key : ℤ) (c : ℕ) :
    shiftChar (-key) (upperCode (shiftChar key (upperCode c))) = upperCode c := by
  simp only [shiftChar, upperCode]
  split_ifs <;> omega

lemma mulChar_roundtrip (k v : ℤ) (h : (k * v) % 26 = 1) (c : ℕ) :
    mulChar v (upperCode (mulChar k (upperCode c))) = upperCode c := by
  by_cases hc : 65 ≤ upperCode c ∧ upperCode c ≤ 90
  · have hm0 : (0 : ℤ) ≤ ((upperCode c : ℤ) - 65) * k % 26 :=
      Int.emod_nonneg _ (by norm_num)
    have hm1 : ((upperCode c : ℤ) - 65) * k % 26 < 26 :=
      Int.emod_lt_of_pos _ (by norm_num)
    have hinner : mulChar k (upperCode c) =
        (((upperCode c : ℤ) - 65) * k % 26 + 65).toNat := by
      rw [mulChar, if_pos hc]
    rw [hinner]
    set w := (((upperCode c : ℤ) - 65) * k % 26 + 65).toNat with hw
    have hwb : 65 ≤ w ∧ w ≤ 90 := by omega
    rw [upperCode_upper_of w hwb, mulChar, if_pos hwb]
    have hsub : (w : ℤ) - 65 = ((upperCode c : ℤ) - 65) * k % 26 := by omega
    rw [hsub, mul_inv_emod_core ((upperCode c : ℤ) - 65) k v (by omega) (by omega) h]
    omega
  · have hinner : mulChar k (upperCode c) = upperCode c := by
      rw [mulChar, if_neg hc]
    rw [hinner, upperCode_idem, mulChar, if_neg hc]

lemma affineChar_roundtrip (a b v : ℤ) (h : (a * v) % 26 = 1) (c : ℕ) :
    affineDecChar v b (upperCode (affineChar a b (upperCode c))) = upperCode c := by
  by_cases hc : 65 ≤ upperCode c ∧ upperCode c ≤ 90
  · have hm0 : (0 : ℤ) ≤ (a * ((upperCode c : ℤ) - 65) + b) % 26 :=
      Int.emod_nonneg _ (by norm_num)
    have hm1 : (a * ((upperCode c : ℤ) - 65) + b) % 26 < 26 :=
      Int.emod_lt_of_pos _ (by norm_num)
    have hinner : affineChar a b (upperCode c) =
        ((a * ((upperCode c : ℤ) - 65) + b) % 26 + 65).toNat := by
      rw [affineChar, if_pos hc]
    rw [hinner]
    set w := ((a * ((upperCode c : ℤ) - 65) + b) % 26 + 65).toNat with hw
    have hwb : 65 ≤ w ∧ w ≤ 90 := by omega
    rw [upperCode_upper_of w hwb, affineDecChar, if_pos hwb]
    have hsub : (w : ℤ) - 65 = (a * ((upperCode c : ℤ) - 65) + b) % 26 := by omega
    rw [hsub, affine_inv_emod_core ((upperCode c : ℤ) - 65) a b v (by omega) (by omega) h]
    omega
  · have hinner : affineChar a b (upperCode c) = upperCode c := by
      rw [affineChar, if_neg hc]
    rw [hinner, upperCode_idem, affineDecChar, if_neg hc]

-- Hill plumbing.

lemma hillLetters_bounds (text : List ℕ) : ∀ c ∈ hillLetters text, 65 ≤ c ∧ c ≤ 90 := by
  intro c hc
  unfold hillLetters at hc
  obtain ⟨hmem, halpha⟩ := List.mem_filter.mp hc
  obtain ⟨c0, _, rfl⟩ := List.mem_map.mp hmem
  have halpha' : (65 ≤ upperCode c0 ∧ upperCode c0 ≤ 90) ∨
      (97 ≤ upperCode c0 ∧ upperCode c0 ≤ 122) := by
    simpa [isAlphaCode] using halpha
  have hnl := upperCode_not_lower c0
  omega

lemma hillPad_bounds (text : List ℕ) : ∀ c ∈ hillPad text, 65 ≤ c ∧ c ≤ 90 := by
  intro c hc
  simp only [hillPad] at hc
  split_ifs at hc with h
  · rcases List.mem_append.mp hc with h1 | h1
    · exact hillLetters_bounds text c h1
    · simp at h1
      omega
  · exact hillLetters_bounds text c hc

lemma hillPad_even (text : List ℕ) : (hillPad text).length % 2 = 0 := by
  simp only [hillPad]
  split_ifs with h
  · simp only [List.length_append, List.length_cons, List.length_nil]
    omega
  · omega

lemma hillPad_eq (text : List ℕ) :
    hillPad text = hillLetters text ++
      (if (hillLetters text).length % 2 = 1 then [88] else []) := by
  simp only [hillPad]
  split_ifs <;> simp

lemma hillEncPair_bounds (m00 m01 m10 m11 : ℤ) (p : ℕ × ℕ) :
    ∀ x ∈ hillEncPair m00 m01 m10 m11 p, 65 ≤ x ∧ x ≤ 90 := by
  intro x hx
  unfold hillEncPair hillPairFst at hx
  have h0 := Int.emod_nonneg (m00 * ((p.1 : ℤ) - 65) + m01 * ((p.2 : ℤ) - 65))
    (show (26 : ℤ) ≠ 0 by norm_num)
  have h1 := Int.emod_lt_of_pos (m00 * ((p.1 : ℤ) - 65) + m01 * ((p.2 : ℤ) - 65))
    (show (0 : ℤ) < 26 by norm_num)
  have h2 := Int.emod_nonneg (m10 * ((p.1 : ℤ) - 65) + m11 * ((p.2 : ℤ) - 65))
    (show (26 : ℤ) ≠ 0 by norm_num)
  have h3 := Int.emod_lt_of_pos (m10 * ((p.1 : ℤ) - 65) + m11 * ((p.2 : ℤ) - 65))
    (show (0 : ℤ) < 26 by norm_num)
  simp only [List.mem_cons, List.not_mem_nil, or_false] at hx
  rcases hx with rfl | rfl <;> omega

lemma hillPairs_mem : ∀ (l : List ℕ) (p : ℕ × ℕ), p ∈ hillPairs l → p.1 ∈ l ∧ p.2 ∈ l
  | [], p, hp => by simp [hillPairs] at hp
  | [a], p, hp => by simp [hillPairs] at hp
  | a :: b :: rest, p, hp => by
      rw [show hillPairs (a :: b :: rest) = (a, b) :: hillPairs rest from rfl] at hp
      rcases List.mem_cons.mp hp with h | h
      · subst h
        exact ⟨by simp, by simp⟩
      · have ih := hillPairs_mem rest p h
        exact ⟨by simp [ih.1], by simp [ih.2]⟩

lemma hillPairs_flatMap_enc (m00 m01 m10 m11 : ℤ) (L : List (ℕ × ℕ)) :
    hillPairs (L.flatMap (hillEncPair m00 m01 m10 m11)) =
      L.map (fun p => (hillPairFst m00 m01 p, hillPairFst m10 m11 p)) := by
  induction L with
  | nil => rfl
  | cons p rest ih =>
      rw [List.flatMap_cons]
      show hillPairs (hillPairFst m00 m01 p :: hillPairFst m10 m11 p ::
        rest.flatMap (hillEncPair m00 m01 m10 m11)) = _
      rw [show hillPairs (hillPairFst m00 m01 p :: hillPairFst m10 m11 p ::
        rest.flatMap (hillEncPair m00 m01 m10 m11)) =
        (hillPairFst m00 m01 p, hillPairFst m10 m11 p) ::
        hillPairs (rest.flatMap (hillEncPair m00 m01 m10 m11)) from rfl, ih]
      rfl

lemma hillPairs_unpair : ∀ l : List ℕ, l.length % 2 = 0 →
    (hillPairs l).flatMap (fun p => [p.1, p.2]) = l
  | [], _ => rfl
  | [a], h => by simp at h
  | a :: b :: rest, h => by
      have hr : rest.length % 2 = 0 := by
        simp only [List.length_cons] at h
        omega
      have ih := hillPairs_unpair rest hr
      rw [show hillPairs (a :: b :: rest) = (a, b) :: hillPairs rest from rfl,
        List.flatMap_cons, ih]
      rfl

lemma hillEncDecPair (m00 m01 m10 m11 invd : ℤ) (p : ℕ × ℕ)
    (hp1 : 65 ≤ p.1 ∧ p.1 ≤ 90) (hp2 : 65 ≤ p.2 ∧ p.2 ≤ 90)
    (hd : ((m00 * m11 - m01 * m10) * invd) % 26 = 1) :
    hillEncPair (m11 * invd % 26) (-m01 * invd % 26) (-m10 * invd % 26) (m00 * invd % 26)
      (hillPairFst m00 m01 p, hillPairFst m10 m11 p) = [p.1, p.2] := by
  obtain ⟨hcore1, hcore2⟩ := hill_inv_emod_core m00 m01 m10 m11 ((p.1 : ℤ) - 65)
    ((p.2 : ℤ) - 65) invd (by omega) (by omega) (by omega) (by omega) hd
  unfold hillEncPair hillPairFst
  have hnn0 := Int.emod_nonneg (m00 * ((p.1 : ℤ) - 65) + m01 * ((p.2 : ℤ) - 65))
    (show (26 : ℤ) ≠ 0 by norm_num)
  have hnn1 := Int.emod_nonneg (m10 * ((p.1 : ℤ) - 65) + m11 * ((p.2 : ℤ) - 65))
    (show (26 : ℤ) ≠ 0 by norm_num)
  have e0 : (((m00 * ((p.1 : ℤ) - 65) + m01 * ((p.2 : ℤ) - 65)) % 26 + 65).toNat : ℤ) - 65 =
      (m00 * ((p.1 : ℤ) - 65) + m01 * ((p.2 : ℤ) - 65)) % 26 := by omega
  have e1 : (((m10 * ((p.1 : ℤ) - 65) + m11 * ((p.2 : ℤ) - 65)) % 26 + 65).toNat : ℤ) - 65 =
      (m10 * ((p.1 : ℤ) - 65) + m11 * ((p.2 : ℤ) - 65)) % 26 := by omega
  simp only
  rw [e0, e1, hcore1, hcore2]
  simp only [List.cons.injEq, and_true]
  constructor <;> omega

lemma gcd_emod_left_26 (x : ℤ) : Int.gcd (x % 26) 26 = Int.gcd x 26 := by
  have hx : x = 26 * (x / 26) + x % 26 := (Int.ediv_add_emod x 26).symm
  have hxm : x % 26 = x - 26 * (x / 26) := by linarith
  apply Nat.dvd_antisymm
  · rw [← Int.natCast_dvd_natCast]
    apply Int.dvd_gcd
    · have h26 : ((Int.gcd (x % 26) 26 : ℤ)) ∣ 26 := Int.gcd_dvd_right
      have hmod : ((Int.gcd (x % 26) 26 : ℤ)) ∣ x % 26 := Int.gcd_dvd_left
      have hsum : ((Int.gcd (x % 26) 26 : ℤ)) ∣ 26 * (x / 26) + x % 26 :=
        dvd_add (h26.mul_right _) hmod
      rwa [← hx] at hsum
    · exact Int.gcd_dvd_right
  · rw [← Int.natCast_dvd_natCast]
    apply Int.dvd_gcd
    · have h26 : ((Int.gcd x 26 : ℤ)) ∣ 26 := Int.gcd_dvd_right
      have hdx : ((Int.gcd x 26 : ℤ)) ∣ x := Int.gcd_dvd_left
      rw [hxm]
      exact dvd_sub hdx (h26.mul_right _)
    · exact Int.gcd_dvd_right

lemma multiplicative_decrypt_some {text : List ℕ} {key inv : ℤ}
    (hg : Int.gcd key 26 = 1) (hinv : mod_inv key 26 = some inv) :
    multiplicative_decrypt text key = (text.map upperCode).map (mulChar inv) := by
  unfold multiplicative_decrypt
  rw [if_neg (by simp [hg]), hinv]

lemma affine_decrypt_some {text : List ℕ} {a b inv : ℤ}
    (hg : Int.gcd a 26 = 1) (hinv : mod_inv a 26 = some inv) :
    affine_decrypt text a b = (text.map upperCode).map (affineDecChar inv b) := by
  unfold affine_decrypt
  rw [if_neg (by simp [hg]), hinv]

lemma hill_decrypt_some {text : List ℕ} {m00 m01 m10 m11 invd : ℤ}
    (hinv : mod_inv ((m00 * m11 - m01 * m10) % 26) 26 = some invd) :
    hill_decrypt text m00 m01 m10 m11 =
      (hillPairs ((text.map upperCode).filter isAlphaCode)).flatMap
        (hillEncPair (m11 * invd % 26) (-m01 * invd % 26)
          (-m10 * invd % 26) (m00 * invd % 26)) := by
  simp only [hill_decrypt]
  rw [hinv]

/-- C5: over ASCII text, the Additive round trip (any integer key), the
Multiplicative round trip (key coprime to 26), and the Affine round trip
(`a` coprime to 26) each return the uppercased text with non-alphabetic
characters passed through; the Hill round trip (determinant coprime to
26) returns the uppercased alphabetic characters with one trailing code
88 (letter X) appended exactly when their count is odd. -/
theorem claim_C5 (text : List ℕ) (hAscii : ∀ c ∈ text, c < 128) :
    (∀ key : ℤ, additive_decrypt (additive_encrypt text key) key = text.map upperCode) ∧
    (∀ key : ℤ, Int.gcd key 26 = 1 →
      multiplicative_decrypt (multiplicative_encrypt text key) key = text.map upperCode) ∧
    (∀ a b : ℤ, Int.gcd a 26 = 1 →
      affine_decrypt (affine_encrypt text a b) a b = text.map upperCode) ∧
    (∀ m00 m01 m10 m11 : ℤ, Int.gcd (m00 * m11 - m01 * m10) 26 = 1 →
      hill_decrypt (hill_encrypt text m00 m01 m10 m11) m00 m01 m10 m11 =
        hillLetters text ++
          (if (hillLetters text).length % 2 = 1 then [88] else [])) := by
  refine ⟨?_, ?_, ?_, ?_⟩
  · intro key
    unfold additive_decrypt additive_encrypt
    simp only [List.map_map]
    exact List.map_congr_left (fun c _ => additive_char key c)
  · intro key hg
    obtain ⟨inv, hinv⟩ := modInv_isSome (by norm_num) hg
    have hspec := modInv_spec_of_eq_some hinv
    have henc : multiplicative_encrypt text key = (text.map upperCode).map (mulChar key) := by
      unfold multiplicative_encrypt
      rw [if_neg (by simp [hg])]
    rw [henc, multiplicative_decrypt_some hg hinv]
    simp only [List.map_map]
    exact List.map_congr_left (fun c _ => mulChar_roundtrip key inv hspec.2.2 c)
  · intro a b hg
    obtain ⟨inv, hinv⟩ := modInv_isSome (by norm_num) hg
    have hspec := modInv_spec_of_eq_some hinv
    have henc : affine_encrypt text a b = (text.map upperCode).map (affineChar a b) := by
      unfold affine_encrypt
      rw [if_neg (by simp [hg])]
    rw [henc, affine_decrypt_some hg hinv]
    simp only [List.map_map]
    exact List.map_congr_left (fun c _ => affineChar_roundtrip a b inv hspec.2.2 c)
  · intro m00 m01 m10 m11 hdet
    have hg26 : Int.gcd ((m00 * m11 - m01 * m10) % 26) 26 = 1 := by
      rw [gcd_emod_left_26]
      exact hdet
    obtain ⟨invd, hinv⟩ := modInv_isSome (by norm_num) hg26
    have hspec := modInv_spec_of_eq_some hinv
    have hd1 : ((m00 * m11 - m01 * m10) * invd) % 26 = 1 := by
      rw [← emod_mul_left_emod]
      exact hspec.2.2
    rw [hill_decrypt_some hinv]
    have hctb : ∀ x ∈ hill_encrypt text m00 m01 m10 m11, 65 ≤ x ∧ x ≤ 90 := by
      intro x hx
      unfold hill_encrypt at hx
      obtain ⟨p, _, hxp⟩ := List.mem_flatMap.mp hx
      exact hillEncPair_bounds m00 m01 m10 m11 p x hxp
    have hmap : (hill_encrypt text m00 m01 m10 m11).map upperCode =
        hill_encrypt text m00 m01 m10 m11 := by
      have h := @List.map_congr_left ℕ (hill_encrypt text m00 m01 m10 m11) ℕ upperCode id
        (fun c hc => upperCode_upper_of c (hctb c hc))
      simpa using h
    have hfilter : (hill_encrypt text m00 m01 m10 m11).filter isAlphaCode =
        hill_encrypt text m00 m01 m10 m11 := by
      rw [List.filter_eq_self]
      intro a ha
      have hb := hctb a ha
      simp only [isAlphaCode, decide_eq_true_eq]
      omega
    rw [hmap, hfilter]
    unfold hill_encrypt
    rw [hillPairs_flatMap_enc, List.flatMap_map]
    have hpt : ∀ p ∈ hillPairs (hillPad text),
        hillEncPair (m11 * invd % 26) (-m01 * invd % 26) (-m10 * invd % 26)
          (m00 * invd % 26) (hillPairFst m00 m01 p, hillPairFst m10 m11 p) = [p.1, p.2] := by
      intro p hp
      have hm := hillPairs_mem (hillPad text) p hp
      exact hillEncDecPair m00 m01 m10 m11 invd p (hillPad_bounds text p.1 hm.1)
        (hillPad_bounds text p.2 hm.2) hd1
    have hcongr : (hillPairs (hillPad text)).flatMap
        (fun p => hillEncPair (m11 * invd % 26) (-m01 * invd % 26) (-m10 * invd % 26)
          (m00 * invd % 26) (hillPairFst m00 m01 p, hillPairFst m10 m11 p)) =
        (hillPairs (hillPad text)).flatMap (fun p => [p.1, p.2]) := by
      rw [List.flatMap_def, List.flatMap_def]
      exact congrArg List.flatten (List.map_congr_left hpt)
    rw [hcongr, hillPairs_unpair _ (hillPad_even text)]
    exact hillPad_eq text

/-- C5 witness: concrete round trips with text containing a non-letter,
and the Hill worked key `[[3,3],[2,5]]` on "Help". -/
theorem claim_C5_witness :
    additive_decrypt (additive_encrypt (codes ['H', 'i', '!']) 3) 3 =
      (codes ['H', 'i', '!']).map upperCode ∧
    multiplicative_decrypt (multiplicative_encrypt (codes ['H', 'i', '!']) 5) 5 =
      (codes ['H', 'i', '!']).map upperCode ∧
    affine_decrypt (affine_encrypt (codes ['H', 'i', '!']) 5 8) 5 8 =
      (codes ['H', 'i', '!']).map upperCode ∧
    hill_decrypt (hill_encrypt (codes ['H', 'e', 'l', 'p']) 3 3 2 5) 3 3 2 5 =
      hillLetters (codes ['H', 'e', 'l', 'p']) ++
        (if (hillLetters (codes ['H', 'e', 'l', 'p'])).length % 2 = 1 then [88] else []) := by
  have h1 := claim_C5 (codes ['H', 'i', '!']) (by decide)
  have h2 := claim_C5 (codes ['H', 'e', 'l', 'p']) (by decide)
  exact ⟨h1.1 3, h1.2.1 5 (by decide), h1.2.2.1 5 8 (by decide),
    h2.2.2.2 3 3 2 5 (by decide)⟩

-- ======================= TRANSPOSITION CIPHERS ===========================

-- ---------------- Rail-Fence Transposition Cipher ----------------

/-- The zigzag rail-index walk shared by encryption and decryption: start
at rail 0 going down, bounce whenever the rail becomes `0` or
`numRails - 1` (the source updates the rail, then flips the direction). -/
def zigzagAux (n : ℤ) : ℕ → ℤ → ℤ → List ℤ
  | 0, _, _ => []
  | len + 1, rail, dir =>
      rail ::
        zigzagAux n len (rail + dir)
          (if rail + dir = 0 ∨ rail + dir = n - 1 then -dir else dir)

def zigzag (n : ℤ) (len : ℕ) : List ℤ := zigzagAux n len 0 1

/-- The characters a given rail collects during the zigzag walk, in walk
order: exactly the positions whose pattern entry is that rail. -/
def railBucket (pattern : List ℤ) (pt : List ℕ) (r : ℤ) : List ℕ :=
  ((pattern.zip pt).filter (fun p => p.1 == r)).map Prod.snd

def rail_fence_encrypt (pt : List ℕ) (numRails : ℤ) : List ℕ :=
  if numRails ≤ 1 then pt
  else
    (List.range numRails.toNat).flatMap
      (fun r => railBucket (zigzag numRails pt.length) pt ((r : ℕ) : ℤ))

/-- Slice a list into consecutive runs of the given lengths (how the
source deals ciphertext characters out to the rails). -/
def splitRuns : List ℕ → List ℕ → List (List ℕ)
  | _, [] => []
  | ct, c :: cs => ct.take c :: splitRuns (ct.drop c) cs

/-- Re-walk the pattern, consuming the next unused character of the rail
indicated at each position (the source's per-rail counters become
dropping the consumed head of that rail). -/
def rebuild : List ℤ → (ℤ → List ℕ) → List ℕ
  | [], _ => []
  | r :: ps, rails =>
      (rails r).headD 0 ::
        rebuild ps (fun x => if x = r then (rails r).tail else rails x)

def rail_fence_decrypt (ct : List ℕ) (numRails : ℤ) : List ℕ :=
  if numRails ≤ 1 then ct
  else
    rebuild (zigzag numRails ct.length)
      (fun r =>
        (splitRuns ct ((List.range numRails.toNat).map
          (fun s => (zigzag numRails ct.length).count ((s : ℕ) : ℤ)))).getD r.toNat [])

lemma zigzagAux_length (n : ℤ) : ∀ (len : ℕ) (rail dir : ℤ),
    (zigzagAux n len rail dir).length = len := by
  intro len
  induction len with
  | zero => intro rail dir; rfl
  | succ k ih =>
      intro rail dir
      show (rail :: zigzagAux n k (rail + dir) _).length = k + 1
      rw [List.length_cons, ih]

lemma zigzagAux_mem_range (n : ℤ) (hn : 2 ≤ n) : ∀ (len : ℕ) (rail dir : ℤ),
    0 ≤ rail → rail ≤ n - 1 → (dir = 1 ∨ dir = -1) →
    (rail = 0 → dir = 1) → (rail = n - 1 → dir = -1) →
    ∀ r ∈ zigzagAux n len rail dir, 0 ≤ r ∧ r < n := by
  intro len
  induction len with
  | zero => intro rail dir _ _ _ _ _ r hr; simp [zigzagAux] at hr
  | succ k ih =>
      intro rail dir h0 h1 hd hr0 hrn r hr
      rw [show zigzagAux n (k + 1) rail dir = rail ::
        zigzagAux n k (rail + dir)
          (if rail + dir = 0 ∨ rail + dir = n - 1 then -dir else dir) from rfl] at hr
      rcases List.mem_cons.mp hr with rfl | hmem
      · omega
      · by_cases hflip : rail + dir = 0 ∨ rail + dir = n - 1
        · rw [if_pos hflip] at hmem
          exact ih (rail + dir) (-dir) (by omega) (by omega) (by omega)
            (by omega) (by omega) r hmem
        · rw [if_neg hflip] at hmem
          exact ih (rail + dir) dir (by omega) (by omega) (by omega)
            (by omega) (by omega) r hmem

lemma zigzag_length (n : ℤ) (len : ℕ) : (zigzag n len).length = len :=
  zigzagAux_length n len 0 1

lemma zigzag_mem_range (n : ℤ) (hn : 2 ≤ n) (len : ℕ) :
    ∀ r ∈ zigzag n len, 0 ≤ r ∧ r < n :=
  zigzagAux_mem_range n hn len 0 1 (by omega) (by omega) (by omega)
    (by omega) (by omega)

lemma railBucket_cons_eq (r : ℤ) (c : ℕ) (ps : List ℤ) (cs : List ℕ) :
    railBucket (r :: ps) (c :: cs) r = c :: railBucket ps cs r := by
  unfold railBucket
  rw [show (r :: ps).zip (c :: cs) = (r, c) :: ps.zip cs from rfl, List.filter_cons]
  simp

lemma railBucket_cons_ne (p : ℤ) (c : ℕ) (ps : List ℤ) (cs : List ℕ) (r : ℤ)
    (h : p ≠ r) : railBucket (p :: ps) (c :: cs) r = railBucket ps cs r := by
  unfold railBucket
  rw [show (p :: ps).zip (c :: cs) = (p, c) :: ps.zip cs from rfl, List.filter_cons]
  simp [h]

lemma railBucket_length : ∀ (pattern : List ℤ) (pt : List ℕ),
    pattern.length = pt.length →
    ∀ r, (railBucket pattern pt r).length = pattern.count r := by
  intro pattern
  induction pattern with
  | nil =>
      intro pt h r
      cases pt with
      | nil => rfl
      | cons c cs => simp at h
  | cons p ps ih =>
      intro pt h r
      cases pt with
      | nil => simp at h
      | cons c cs =>
          have h' : ps.length = cs.length := by simpa using h
          have ihr := ih cs h' r
          by_cases hpr : p = r
          · subst hpr
            rw [railBucket_cons_eq, List.count_cons, List.length_cons, ihr]
            simp
          · rw [railBucket_cons_ne p c ps cs r hpr, List.count_cons, ihr]
            simp [hpr]

lemma rebuild_buckets : ∀ (pattern : List ℤ) (pt : List ℕ) (F : ℤ → List ℕ),
    pattern.length = pt.length →
    (∀ r ∈ pattern, F r = railBucket pattern pt r) →
    rebuild pattern F = pt := by
  intro pattern
  induction pattern with
  | nil =>
      intro pt F h _
      cases pt with
      | nil => rfl
      | cons c cs => simp at h
  | cons r ps ih =>
      intro pt F h hF
      cases pt with
      | nil => simp at h
      | cons c cs =>
          have hr := hF r (List.mem_cons_self r ps)
          rw [show rebuild (r :: ps) F = (F r).headD 0 ::
            rebuild ps (fun x => if x = r then (F r).tail else F x) from rfl]
          rw [hr, railBucket_cons_eq, List.headD_cons, List.tail_cons]
          congr 1
          refine ih cs _ (by simpa using h) ?_
          intro x hx
          by_cases hxr : x = r
          · subst hxr
            rw [if_pos rfl]
          · rw [if_neg hxr, hF x (List.mem_cons_of_mem r hx),
              railBucket_cons_ne r c ps cs x (fun hh => hxr hh.symm)]

lemma splitRuns_flatten : ∀ (Bs : List (List ℕ)),
    splitRuns Bs.flatten (Bs.map List.length) = Bs := by
  intro Bs
  induction Bs with
  | nil => rfl
  | cons b bs ih =>
      rw [List.flatten_cons, List.map_cons]
      show (b ++ bs.flatten).take b.length ::
        splitRuns ((b ++ bs.flatten).drop b.length) (bs.map List.length) = b :: bs
      rw [List.take_left, List.drop_left, ih]

lemma getD_map_range {α : Type} (f : ℕ → α) (n i : ℕ) (d : α) (h : i < n) :
    ((List.range n).map f).getD i d = f i := by
  rw [List.getD_eq_getElem _ _ (by simpa using h), List.getElem_map, List.getElem_range]

lemma sum_map_add_distrib (f g : ℕ → ℕ) (l : List ℕ) :
    (l.map (fun r => f r + g r)).sum = (l.map f).sum + (l.map g).sum := by
  induction l with
  | nil => rfl
  | cons a t ih =>
      simp only [List.map_cons, List.sum_cons, ih]
      omega

lemma sum_indicator_zero : ∀ (n : ℕ) (p : ℤ), (p < 0 ∨ (n : ℤ) ≤ p) →
    ((List.range n).map (fun r => if p == ((r : ℕ) : ℤ) then 1 else 0)).sum = 0 := by
  intro n
  induction n with
  | zero => intro p _; rfl
  | succ k ih =>
      intro p hp
      have hne : ¬ ((p == ((k : ℕ) : ℤ)) = true) := by
        simp only [beq_iff_eq]
        omega
      rw [List.range_succ, List.map_append, List.sum_append, ih p (by omega),
        show (List.map (fun r => if p == ((r : ℕ) : ℤ) then 1 else 0) [k]).sum =
          if p == ((k : ℕ) : ℤ) then 1 else 0 from by simp, if_neg hne]

lemma sum_indicator_one : ∀ (n : ℕ) (p : ℤ), 0 ≤ p → p < (n : ℤ) →
    ((List.range n).map (fun r => if p == ((r : ℕ) : ℤ) then 1 else 0)).sum = 1 := by
  intro n
  induction n with
  | zero =>
      intro p h0 h1
      exfalso
      omega
  | succ k ih =>
      intro p h0 h1
      rw [List.range_succ, List.map_append, List.sum_append,
        show (List.map (fun r => if p == ((r : ℕ) : ℤ) then 1 else 0) [k]).sum =
          if p == ((k : ℕ) : ℤ) then 1 else 0 from by simp]
      by_cases hk : p = ((k : ℕ) : ℤ)
      · have hbe : (p == ((k : ℕ) : ℤ)) = true := by
          simp only [beq_iff_eq]
          exact hk
        rw [sum_indicator_zero k p (by omega), if_pos hbe]
      · have hbe : ¬ ((p == ((k : ℕ) : ℤ)) = true) := by
          simp only [beq_iff_eq]
          exact hk
        rw [ih p h0 (by omega), if_neg hbe]

lemma sum_count_range : ∀ (l : List ℤ) (n : ℕ), (∀ x ∈ l, 0 ≤ x ∧ x < (n : ℤ)) →
    ((List.range n).map (fun r => l.count ((r : ℕ) : ℤ))).sum = l.length := by
  intro l
  induction l with
  | nil =>
      intro n _
      simp
  | cons p ps ih =>
      intro n h
      have hp := h p (List.mem_cons_self p ps)
      have hcongr : (List.range n).map (fun r => (p :: ps).count ((r : ℕ) : ℤ)) =
          (List.range n).map (fun r => ps.count ((r : ℕ) : ℤ) +
            (if p == ((r : ℕ) : ℤ) then 1 else 0)) :=
        List.map_congr_left (fun r _ => by rw [List.count_cons])
      rw [hcongr, sum_map_add_distrib, ih n (fun x hx => h x (List.mem_cons_of_mem p hx)),
        sum_indicator_one n p hp.1 hp.2]
      simp

lemma rail_roundtrip (pt : List ℕ) (numRails : ℤ) (h2 : 2 ≤ numRails) :
    rail_fence_decrypt (rail_fence_encrypt pt numRails) numRails = pt := by
  have hnot : ¬ numRails ≤ 1 := by omega
  set pattern := zigzag numRails pt.length with hpat
  have hplen : pattern.length = pt.length := zigzag_length _ _
  have hrange := zigzag_mem_range numRails h2 pt.length
  set Bs := (List.range numRails.toNat).map
    (fun r => railBucket pattern pt ((r : ℕ) : ℤ)) with hBs
  have henc : rail_fence_encrypt pt numRails = Bs.flatten := by
    unfold rail_fence_encrypt
    rw [if_neg hnot, List.flatMap_def]
  have hBlen : Bs.map List.length =
      (List.range numRails.toNat).map (fun s => pattern.count ((s : ℕ) : ℤ)) := by
    rw [hBs, List.map_map]
    exact List.map_congr_left (fun r _ => railBucket_length pattern pt hplen _)
  have hbound : ∀ x ∈ pattern, 0 ≤ x ∧ x < ((numRails.toNat : ℕ) : ℤ) := by
    intro x hx
    have := hrange x hx
    omega
  have hctlen : Bs.flatten.length = pt.length := by
    rw [List.length_flatten, hBlen, sum_count_range pattern numRails.toNat hbound, hplen]
  rw [henc]
  unfold rail_fence_decrypt
  rw [if_neg hnot, hctlen, ← hpat, ← hBlen, splitRuns_flatten Bs]
  apply rebuild_buckets pattern pt _ hplen
  intro r hr
  have hrb := hrange r hr
  have hrt : r.toNat < numRails.toNat := by omega
  rw [hBs, getD_map_range (fun s => railBucket pattern pt ((s : ℕ) : ℤ))
    numRails.toNat r.toNat [] hrt]
  congr 1
  omega

-- ---------------- Disruptive Transposition Cipher ----------------

/-- Modelled from the spec: the source seeds Python `random.Random` with
`sum(ord(c) for c in key)` and shuffles `list(range(len(text)))`; the
Mersenne-Twister generator behind `random.shuffle` is library code
outside this repository.  Per §4.7/§9 the cipher only requires a fixed
deterministic generator driving a Fisher-Yates shuffle, identical on the
encrypt and decrypt sides; we fix a linear congruential generator with
the classic glibc constants. -/
def lcgNext (s : ℕ) : ℕ := (1103515245 * s + 12345) % 2147483648

/-- Modelled from the spec: Fisher-Yates shuffle of `[0, n)` expressed as
a permutation; position `i` (from `n-1` down to `1`) is swapped with the
generator-chosen position `j = rand % (i+1)`. -/
def fyAux : ℕ → ℕ → Equiv.Perm ℕ → Equiv.Perm ℕ
  | 0, _, p => p
  | i + 1, s, p => fyAux i (lcgNext s) ((Equiv.swap (i + 1) (lcgNext s % (i + 2))).trans p)

/-- The deterministic seed: the sum of the key character codes. -/
def keySeed (key : List ℕ) : ℕ := key.sum

/-- The shuffled index list `perm`, with `perm[i]` the final position of
`text[i]`. -/
def disruptivePerm (key : List ℕ) (n : ℕ) : List ℕ :=
  (List.range n).map (fun k => fyAux (n - 1) (keySeed key) (Equiv.refl ℕ) k)

/-- Sequential placement `out[idx[i]] = vals[i]` (Python loop of indexed
assignments), as a fold of `List.set`. -/
def setAll (ps : List (ℕ × ℕ)) (init : List ℕ) : List ℕ :=
  ps.foldl (fun acc p => acc.set p.1 p.2) init

def scatter (idx vals init : List ℕ) : List ℕ := setAll (idx.zip vals) init

def disruptive_transposition_encrypt (text key : List ℕ) : List ℕ :=
  scatter (disruptivePerm key text.length) text (List.replicate text.length 0)

def disruptive_transposition_decrypt (ct key : List ℕ) : List ℕ :=
  scatter (scatter (disruptivePerm key ct.length) (List.range ct.length)
      (List.replicate ct.length 0))
    ct (List.replicate ct.length 0)

lemma fyAux_succ (s m : ℕ) (σ : Equiv.Perm ℕ) :
    fyAux (m + 1) s σ =
      fyAux m (lcgNext s) ((Equiv.swap (m + 1) (lcgNext s % (m + 2))).trans σ) := rfl

lemma fyAux_bound (n : ℕ) : ∀ (i : ℕ) (s : ℕ) (σ : Equiv.Perm ℕ), i < n →
    ((∀ k, k < n → σ k < n) ∧ (∀ k, n ≤ k → σ k = k)) →
    ((∀ k, k < n → fyAux i s σ k < n) ∧ (∀ k, n ≤ k → fyAux i s σ k = k)) := by
  intro i
  induction i with
  | zero => intro s σ _ h; exact h
  | succ m ih =>
      intro s σ hm h
      simp only [fyAux_succ]
      have hj : lcgNext s % (m + 2) < n := by
        have := Nat.mod_lt (lcgNext s) (show 0 < m + 2 by omega)
        omega
      apply ih (lcgNext s) _ (by omega)
      constructor
      · intro k hk
        rw [Equiv.trans_apply, Equiv.swap_apply_def]
        split_ifs with h1 h2
        · exact h.1 _ hj
        · exact h.1 _ (by omega)
        · exact h.1 _ hk
      · intro k hk
        rw [Equiv.trans_apply, Equiv.swap_apply_def, if_neg (by omega), if_neg (by omega)]
        exact h.2 _ hk

lemma disruptivePerm_length (key : List ℕ) (n : ℕ) :
    (disruptivePerm key n).length = n := by
  unfold disruptivePerm
  rw [List.length_map, List.length_range]

lemma disruptivePerm_facts (key : List ℕ) (n : ℕ) (hn : 0 < n) :
    (∀ k, k < n → fyAux (n - 1) (keySeed key) (Equiv.refl ℕ) k < n) ∧
    (∀ k, n ≤ k → fyAux (n - 1) (keySeed key) (Equiv.refl ℕ) k = k) :=
  fyAux_bound n (n - 1) (keySeed key) (Equiv.refl ℕ) (by omega)
    ⟨fun k hk => by simpa using hk, fun k _ => rfl⟩

lemma disruptivePerm_getD (key : List ℕ) (n k : ℕ) (hk : k < n) :
    (disruptivePerm key n).getD k 0 = fyAux (n - 1) (keySeed key) (Equiv.refl ℕ) k :=
  getD_map_range _ n k 0 hk

lemma disruptivePerm_lt (key : List ℕ) (n : ℕ) :
    ∀ x ∈ disruptivePerm key n, x < n := by
  intro x hx
  unfold disruptivePerm at hx
  obtain ⟨k, hk, rfl⟩ := List.mem_map.mp hx
  rw [List.mem_range] at hk
  exact (disruptivePerm_facts key n (by omega)).1 k hk

lemma disruptivePerm_nodup (key : List ℕ) (n : ℕ) :
    (disruptivePerm key n).Nodup :=
  (List.nodup_range n).map
    (fun a b hab => (fyAux (n - 1) (keySeed key) (Equiv.refl ℕ)).injective hab)

lemma disruptivePerm_surj (key : List ℕ) (n j : ℕ) (hj : j < n) :
    ∃ k, k < n ∧ (disruptivePerm key n).getD k 0 = j := by
  set σ := fyAux (n - 1) (keySeed key) (Equiv.refl ℕ) with hσ
  have hfacts := disruptivePerm_facts key n (by omega)
  have hsym : σ.symm j < n := by
    by_contra hge
    have h1 : σ (σ.symm j) = σ.symm j := hfacts.2 _ (by omega)
    rw [Equiv.apply_symm_apply] at h1
    omega
  refine ⟨σ.symm j, hsym, ?_⟩
  rw [disruptivePerm_getD key n _ hsym, ← hσ, Equiv.apply_symm_apply]

lemma setAll_length : ∀ (ps : List (ℕ × ℕ)) (init : List ℕ),
    (setAll ps init).length = init.length := by
  intro ps
  induction ps with
  | nil => intro init; rfl
  | cons q qs ih =>
      intro init
      show (setAll qs (init.set q.1 q.2)).length = init.length
      rw [ih, List.length_set]

lemma setAll_getD_not_mem : ∀ (ps : List (ℕ × ℕ)) (init : List ℕ) (j d : ℕ),
    (∀ q ∈ ps, q.1 ≠ j) → (setAll ps init).getD j d = init.getD j d := by
  intro ps
  induction ps with
  | nil => intro init j d _; rfl
  | cons q qs ih =>
      intro init j d h
      show (setAll qs (init.set q.1 q.2)).getD j d = init.getD j d
      rw [ih _ j d (fun x hx => h x (List.mem_cons_of_mem q hx))]
      have hne : q.1 ≠ j := h q (List.mem_cons_self q qs)
      simp [List.getD_eq_getElem?_getD, List.getElem?_set_ne hne]

lemma scatter_getD : ∀ (idx vals init : List ℕ) (k d : ℕ),
    idx.Nodup → idx.length = vals.length → k < idx.length →
    (∀ x ∈ idx, x < init.length) →
    (scatter idx vals init).getD (idx.getD k 0) d = vals.getD k d := by
  intro idx
  induction idx with
  | nil => intro vals init k d _ _ hk _; simp at hk
  | cons i is ih =>
      intro vals init k d hnd hlen hk hbound
      cases vals with
      | nil => simp at hlen
      | cons v vs =>
          have hstep : scatter (i :: is) (v :: vs) init =
              setAll (is.zip vs) (init.set i v) := rfl
          rw [hstep]
          cases k with
          | zero =>
              rw [show (i :: is).getD 0 0 = i from rfl,
                setAll_getD_not_mem (is.zip vs) (init.set i v) i d ?notmem]
              · have hilen : i < init.length := hbound i (List.mem_cons_self i is)
                simp [List.getD_eq_getElem?_getD, List.getElem?_set_self, hilen]
              case notmem =>
                intro q hq
                have := List.of_mem_zip hq
                have hnotin : i ∉ is := (List.nodup_cons.mp hnd).1
                intro hcontra
                exact hnotin (hcontra ▸ this.1)
          | succ m =>
              rw [List.getD_cons_succ, List.getD_cons_succ]
              have := ih vs (init.set i v) m d (List.nodup_cons.mp hnd).2
                (by simpa using hlen) (by simpa using hk)
                (fun x hx => by
                  rw [List.length_set]
                  exact hbound x (List.mem_cons_of_mem i hx))
              exact this

lemma list_ext_getD (l1 l2 : List ℕ) (hlen : l1.length = l2.length)
    (h : ∀ i, i < l1.length → l1.getD i 0 = l2.getD i 0) : l1 = l2 := by
  apply List.ext_getElem hlen
  intro i h1 h2
  have := h i h1
  rwa [List.getD_eq_getElem _ _ h1, List.getD_eq_getElem _ _ h2] at this

lemma disruptive_roundtrip (text key : List ℕ) :
    disruptive_transposition_decrypt (disruptive_transposition_encrypt text key) key
      = text := by
  set n := text.length with hn
  set perm := disruptivePerm key n with hperm
  have hplen : perm.length = n := disruptivePerm_length key n
  have hpnd : perm.Nodup := disruptivePerm_nodup key n
  have hplt : ∀ x ∈ perm, x < n := disruptivePerm_lt key n
  set ct := disruptive_transposition_encrypt text key with hct
  have hctlen : ct.length = n := by
    rw [hct]
    unfold disruptive_transposition_encrypt scatter
    rw [setAll_length, List.length_replicate]
  have hC : ∀ k, k < n → ct.getD (perm.getD k 0) 0 = text.getD k 0 := by
    intro k hk
    rw [hct]
    unfold disruptive_transposition_encrypt
    exact scatter_getD perm text (List.replicate n 0) k 0 hpnd (by omega)
      (by omega) (fun x hx => by rw [List.length_replicate]; exact hplt x hx)
  set I := scatter perm (List.range n) (List.replicate n 0) with hI
  have hIlen : I.length = n := by
    rw [hI]
    unfold scatter
    rw [setAll_length, List.length_replicate]
  have hIval : ∀ k, k < n → I.getD (perm.getD k 0) 0 = k := by
    intro k hk
    rw [hI, scatter_getD perm (List.range n) (List.replicate n 0) k 0 hpnd
      (by rw [List.length_range]; omega) (by omega)
      (fun x hx => by rw [List.length_replicate]; exact hplt x hx)]
    rw [List.getD_eq_getElem _ _ (by rw [List.length_range]; omega), List.getElem_range]
  have hIless : ∀ x ∈ I, x < n := by
    intro x hx
    obtain ⟨j, hjlen, hjval⟩ := List.mem_iff_getElem.mp hx
    have hjn : j < n := by omega
    obtain ⟨k, hkn, hkval⟩ := disruptivePerm_surj key n j hjn
    have := hIval k hkn
    rw [hkval] at this
    rw [← hjval, ← List.getD_eq_getElem I 0 hjlen, this]
    exact hkn
  have hInd : I.Nodup := by
    rw [List.nodup_iff_injective_get]
    intro a b hab
    obtain ⟨k1, hk1n, hk1⟩ := disruptivePerm_surj key n a.val (by
      have := a.isLt
      omega)
    obtain ⟨k2, hk2n, hk2⟩ := disruptivePerm_surj key n b.val (by
      have := b.isLt
      omega)
    rw [← hperm] at hk1 hk2
    have h1 := hIval k1 hk1n
    have h2 := hIval k2 hk2n
    rw [hk1] at h1
    rw [hk2] at h2
    have hga : I.get a = I.getD a.val 0 := by
      rw [List.getD_eq_getElem I 0 a.isLt, List.get_eq_getElem]
    have hgb : I.get b = I.getD b.val 0 := by
      rw [List.getD_eq_getElem I 0 b.isLt, List.get_eq_getElem]
    have hk12 : k1 = k2 := by
      rw [hga, hgb, h1, h2] at hab
      exact hab
    apply Fin.ext
    rw [← hk1, ← hk2, hk12]
  have hdec : disruptive_transposition_decrypt ct key = scatter I ct (List.replicate n 0) := by
    unfold disruptive_transposition_decrypt
    rw [hctlen, ← hperm, ← hI]
  rw [hdec]
  have hDlen : (scatter I ct (List.replicate n 0)).length = n := by
    unfold scatter
    rw [setAll_length, List.length_replicate]
  apply list_ext_getD _ _ (by rw [hDlen, hn])
  intro t ht
  rw [hDlen] at ht
  have hpt : perm.getD t 0 < n := by
    have : perm.getD t 0 ∈ perm := by
      rw [List.getD_eq_getElem perm 0 (by omega)]
      exact List.getElem_mem _
    exact hplt _ this
  have hD := scatter_getD I ct (List.replicate n 0) (perm.getD t 0) 0 hInd
    (by omega) (by omega)
    (fun x hx => by rw [List.length_replicate]; exact hIless x hx)
  rw [hIval t ht] at hD
  rw [hD, hC t ht]

/-- C1: the Rail-Fence round trip is exact for every integer rail count
(`numRails ≤ 1` makes both directions the identity, `numRails ≥ 2` is the
zigzag round trip), and the Disruptive key-seeded permutation round trip
is exact for every key, with no padding introduced. -/
theorem claim_C1 (text key : List ℕ) (numRails : ℤ) :
    rail_fence_decrypt (rail_fence_encrypt text numRails) numRails = text ∧
    (numRails ≤ 1 → rail_fence_encrypt text numRails = text ∧
      rail_fence_decrypt text numRails = text) ∧
    disruptive_transposition_decrypt
      (disruptive_transposition_encrypt text key) key = text := by
  refine ⟨?_, ?_, disruptive_roundtrip text key⟩
  · by_cases h : numRails ≤ 1
    · unfold rail_fence_encrypt rail_fence_decrypt
      rw [if_pos h, if_pos h]
    · exact rail_roundtrip text numRails (by omega)
  · intro h
    constructor
    · unfold rail_fence_encrypt
      rw [if_pos h]
    · unfold rail_fence_decrypt
      rw [if_pos h]

/-- C1 witness: the spec scenario text at 3 rails, the identity at 1
rail, and a Disruptive round trip with key "KEY". -/
theorem claim_C1_witness :
    rail_fence_decrypt (rail_fence_encrypt
      (codes ['W', 'E', 'A', 'R', 'E', 'D', 'I', 'S', 'C']) 3) 3 =
      codes ['W', 'E', 'A', 'R', 'E', 'D', 'I', 'S', 'C'] ∧
    rail_fence_encrypt (codes ['H', 'I']) 1 = codes ['H', 'I'] ∧
    rail_fence_decrypt (codes ['H', 'I']) 1 = codes ['H', 'I'] ∧
    disruptive_transposition_decrypt (disruptive_transposition_encrypt
      (codes ['H', 'E', 'L', 'L', 'O']) (codes ['K', 'E', 'Y'])) (codes ['K', 'E', 'Y']) =
      codes ['H', 'E', 'L', 'L', 'O'] := by
  have h3 := claim_C1 (codes ['W', 'E', 'A', 'R', 'E', 'D', 'I', 'S', 'C'])
    (codes ['K', 'E', 'Y']) 3
  have h1 := claim_C1 (codes ['H', 'I']) (codes ['K', 'E', 'Y']) 1
  have h5 := claim_C1 (codes ['H', 'E', 'L', 'L', 'O']) (codes ['K', 'E', 'Y']) 3
  exact ⟨h3.1, (h1.2.1 (by decide)).1, (h1.2.1 (by decide)).2, h5.2.2⟩

-- ---------------- Columnar Transposition Cipher ----------------

/-- Comparison used by `sorted(list(enumerate(key)), key=lambda x: (x[1], x[0]))`:
by character code, then by original index.  The sort keys are distinct
(the index breaks every tie), so the stable Python sort result is the
unique sorted order; we realise it with insertion sort. -/
def orderKeyLe (a b : ℕ × ℕ) : Prop := a.2 < b.2 ∨ (a.2 = b.2 ∧ a.1 ≤ b.1)

instance orderKeyLe.decRel : DecidableRel orderKeyLe := fun a b =>
  decidable_of_iff (a.2 < b.2 ∨ (a.2 = b.2 ∧ a.1 ≤ b.1)) Iff.rfl

def keyOrder (key : List ℕ) : List (ℕ × ℕ) := (key.enum).insertionSort orderKeyLe

/-- `num_rows = (len + cols - 1) // cols` of the padded grid. -/
def gridRows (len cols : ℕ) : ℕ := (len + cols - 1) / cols

/-- The plaintext padded with `'X'` (code 88) to fill the grid. -/
def colPadded (pt : List ℕ) (cols : ℕ) : List ℕ :=
  pt ++ List.replicate (gridRows pt.length cols * cols - pt.length) 88

/-- Row-major cell access `matrix[r][c]` of the padded grid. -/
def gridCell (pt : List ℕ) (cols r c : ℕ) : ℕ :=
  (colPadded pt cols).getD (r * cols + c) 88

def columnar_transposition_encrypt (pt key : List ℕ) : List ℕ :=
  (keyOrder key).flatMap (fun oc =>
    (List.range (gridRows pt.length key.length)).map
      (fun r => gridCell pt key.length r oc.1))

/-- Overwrite a finite map at each listed key in order (the Python loops
of indexed assignments, collapsed per column). -/
def writeAll {κ α : Type} [DecidableEq κ] (ps : List (κ × α)) (m : κ → α) : κ → α :=
  ps.foldl (fun acc p => fun x => if x = p.1 then p.2 else acc x) m

/-- The `num_rows` ciphertext characters dealt to the `i`-th column in
key order. -/
def colChunk (ct : List ℕ) (rows i : ℕ) : List ℕ := (ct.drop (i * rows)).take rows

/-- The decrypted grid of Columnar, as a map from column index to column
contents. -/
def colMapOf (ct key : List ℕ) (rows : ℕ) : ℕ → List ℕ :=
  writeAll ((keyOrder key).enum.map (fun ic => (ic.2.1, colChunk ct rows ic.1)))
    (fun _ => [])

/-- Read a `rows × cols` grid row-major. -/
def gridRead (rows cols : ℕ) (cell : ℕ → ℕ → ℕ) : List ℕ :=
  (List.range rows).flatMap (fun r => (List.range cols).map (fun c => cell r c))

def columnar_transposition_decrypt (ct key : List ℕ) : List ℕ :=
  rstripX (gridRead (ct.length / key.length) key.length
    (fun r c => (colMapOf ct key (ct.length / key.length) c).getD r 88))

-- ---------------- Double Transposition Cipher ----------------

def double_transposition_encrypt (pt key1 key2 : List ℕ) : List ℕ :=
  columnar_transposition_encrypt (columnar_transposition_encrypt pt key1) key2

def double_transposition_decrypt (ct key1 key2 : List ℕ) : List ℕ :=
  columnar_transposition_decrypt (columnar_transposition_decrypt ct key2) key1

-- Generic helpers about getD, appends, and uniform blocks.

lemma getD_append_left (l1 l2 : List ℕ) (j d : ℕ) (h : j < l1.length) :
    (l1 ++ l2).getD j d = l1.getD j d := by
  rw [List.getD_eq_getElem?_getD, List.getD_eq_getElem?_getD, List.getElem?_append_left h]

lemma getD_append_right_off (l1 l2 : List ℕ) (t d : ℕ) :
    (l1 ++ l2).getD (l1.length + t) d = l2.getD t d := by
  rw [List.getD_eq_getElem?_getD, List.getD_eq_getElem?_getD,
    List.getElem?_append_right (by omega),
    show l1.length + t - l1.length = t from by omega]

lemma getD_drop (l : List ℕ) (i j d : ℕ) : (l.drop i).getD j d = l.getD (i + j) d := by
  rw [List.getD_eq_getElem?_getD, List.getD_eq_getElem?_getD, List.getElem?_drop]

lemma getD_take (l : List ℕ) (n m d : ℕ) (h : m < n) :
    (l.take n).getD m d = l.getD m d := by
  rw [List.getD_eq_getElem?_getD, List.getD_eq_getElem?_getD, List.getElem?_take,
    if_pos h]

lemma flatten_uniform_getD : ∀ (Bs : List (List ℕ)) (w i j d : ℕ),
    (∀ b ∈ Bs, b.length = w) → i < Bs.length → j < w →
    (Bs.flatten).getD (i * w + j) d = (Bs.getD i []).getD j d := by
  intro Bs
  induction Bs with
  | nil => intro w i j d _ hi _; simp at hi
  | cons b bs ih =>
      intro w i j d huni hi hj
      have hbw : b.length = w := huni b (List.mem_cons_self b bs)
      rw [List.flatten_cons]
      cases i with
      | zero =>
          rw [List.getD_cons_zero]
          simpa using getD_append_left b bs.flatten j d (by omega)
      | succ m =>
          rw [List.getD_cons_succ]
          have harith : (m + 1) * w + j = b.length + (m * w + j) := by
            rw [hbw]
            ring
          rw [harith, getD_append_right_off]
          exact ih w m j d (fun x hx => huni x (List.mem_cons_of_mem b hx))
            (by simpa using hi) hj

lemma flatten_chunk : ∀ (Bs : List (List ℕ)) (w i : ℕ),
    (∀ b ∈ Bs, b.length = w) → i < Bs.length →
    (Bs.flatten.drop (i * w)).take w = Bs.getD i [] := by
  intro Bs
  induction Bs with
  | nil => intro w i _ hi; simp at hi
  | cons b bs ih =>
      intro w i huni hi
      have hbw : b.length = w := huni b (List.mem_cons_self b bs)
      rw [List.flatten_cons]
      cases i with
      | zero =>
          rw [List.getD_cons_zero]
          rw [show (0 : ℕ) * w = 0 from by ring, List.drop_zero, ← hbw, List.take_left]
      | succ m =>
          rw [List.getD_cons_succ]
          have harith : (m + 1) * w = b.length + m * w := by
            rw [hbw]
            ring
          rw [harith, ← List.drop_drop, List.drop_left]
          exact ih w m (fun x hx => huni x (List.mem_cons_of_mem b hx)) (by simpa using hi)

lemma length_flatMap_const {α : Type} (L : List α) (f : α → List ℕ) (w : ℕ)
    (h : ∀ a ∈ L, (f a).length = w) : (L.flatMap f).length = L.length * w := by
  induction L with
  | nil => simp
  | cons a t ih =>
      rw [List.flatMap_cons, List.length_append, h a (List.mem_cons_self a t),
        ih (fun x hx => h x (List.mem_cons_of_mem a hx)), List.length_cons]
      ring

lemma gridRead_succ (rows cols : ℕ) (cell : ℕ → ℕ → ℕ) :
    gridRead (rows + 1) cols cell =
      gridRead rows cols cell ++ (List.range cols).map (cell rows) := by
  unfold gridRead
  rw [List.range_succ, List.flatMap_append]
  simp

lemma gridRead_congr (rows cols : ℕ) (f g : ℕ → ℕ → ℕ)
    (h : ∀ r, r < rows → ∀ c, c < cols → f r c = g r c) :
    gridRead rows cols f = gridRead rows cols g := by
  unfold gridRead
  rw [List.flatMap_def, List.flatMap_def]
  apply congrArg List.flatten
  apply List.map_congr_left
  intro r hr
  apply List.map_congr_left
  intro c hc
  exact h r (List.mem_range.mp hr) c (List.mem_range.mp hc)

lemma gridRead_getD : ∀ (rows cols : ℕ) (l : List ℕ) (d : ℕ),
    l.length = rows * cols →
    gridRead rows cols (fun r c => l.getD (r * cols + c) d) = l := by
  intro rows
  induction rows with
  | zero =>
      intro cols l d hlen
      have hnil : l = [] := by
        rw [show (0 : ℕ) * cols = 0 from by ring] at hlen
        exact List.length_eq_zero.mp hlen
      subst hnil
      rfl
  | succ m ih =>
      intro cols l d hlen
      have hexp : (m + 1) * cols = m * cols + cols := by ring
      have hm : m * cols ≤ l.length := by omega
      have htake : (l.take (m * cols)).length = m * cols := by
        rw [List.length_take]
        omega
      rw [gridRead_succ]
      have h1 : gridRead m cols (fun r c => l.getD (r * cols + c) d) =
          l.take (m * cols) := by
        rw [← ih cols (l.take (m * cols)) d htake]
        apply gridRead_congr
        intro r hr c hc
        have hrc : r * cols + c < m * cols := by
          have ha : (r + 1) * cols ≤ m * cols := Nat.mul_le_mul_right cols (by omega)
          have hb : (r + 1) * cols = r * cols + cols := by ring
          omega
        rw [getD_take l (m * cols) (r * cols + c) d hrc]
      have h2 : (List.range cols).map (fun c => l.getD (m * cols + c) d) =
          l.drop (m * cols) := by
        apply list_ext_getD
        · rw [List.length_map, List.length_range, List.length_drop]
          omega
        · intro i hi
          rw [List.length_map, List.length_range] at hi
          have hidx : m * cols + i < l.length := by omega
          rw [getD_map_range _ cols i 0 hi, getD_drop,
            List.getD_eq_getElem l d hidx, List.getD_eq_getElem l 0 hidx]
      rw [h1, h2, List.take_append_drop]

lemma writeAll_not_mem {κ α : Type} [DecidableEq κ] :
    ∀ (ps : List (κ × α)) (m : κ → α) (k : κ),
    (∀ q ∈ ps, q.1 ≠ k) → writeAll ps m k = m k := by
  intro ps
  induction ps with
  | nil => intro m k _; rfl
  | cons q qs ih =>
      intro m k h
      show writeAll qs (fun x => if x = q.1 then q.2 else m x) k = m k
      rw [ih _ k (fun x hx => h x (List.mem_cons_of_mem q hx))]
      show (if k = q.1 then q.2 else m k) = m k
      exact if_neg (fun hc => (h q (List.mem_cons_self q qs)) hc.symm)

lemma writeAll_mem_nodup {κ α : Type} [DecidableEq κ] :
    ∀ (ps : List (κ × α)) (m : κ → α) (k : κ) (v : α),
    (ps.map Prod.fst).Nodup → (k, v) ∈ ps → writeAll ps m k = v := by
  intro ps
  induction ps with
  | nil => intro m k v _ h; simp at h
  | cons q qs ih =>
      intro m k v hnd hmem
      have hnd' : (q.1 :: qs.map Prod.fst).Nodup := by simpa using hnd
      show writeAll qs (fun x => if x = q.1 then q.2 else m x) k = v
      rcases List.mem_cons.mp hmem with heq | hmem2
      · have hk : q.1 = k := by rw [← heq]
        have hnotin : ∀ p ∈ qs, p.1 ≠ k := by
          intro p hp hpk
          apply (List.nodup_cons.mp hnd').1
          rw [hk, ← hpk]
          exact List.mem_map.mpr ⟨p, hp, rfl⟩
        rw [writeAll_not_mem qs _ k hnotin]
        show (if k = q.1 then q.2 else m k) = v
        rw [if_pos hk.symm, ← heq]
      · exact ih _ k v (List.nodup_cons.mp hnd').2 hmem2

lemma writeAll_mem_const {κ α : Type} [DecidableEq κ] :
    ∀ (ps : List (κ × α)) (m : κ → α) (k : κ) (v : α),
    ((k, v) ∈ ps) → (∀ w, (k, w) ∈ ps → w = v) → writeAll ps m k = v := by
  intro ps
  induction ps with
  | nil => intro m k v h _; simp at h
  | cons q qs ih =>
      intro m k v hmem huniq
      show writeAll qs (fun x => if x = q.1 then q.2 else m x) k = v
      by_cases hqs : ∃ w, (k, w) ∈ qs
      · obtain ⟨w, hw⟩ := hqs
        have hwv : w = v := huniq w (List.mem_cons_of_mem q hw)
        subst hwv
        exact ih _ k w hw (fun u hu => huniq u (List.mem_cons_of_mem q hu))
      · have hnm : ∀ p ∈ qs, p.1 ≠ k := by
          intro p hp hpk
          apply hqs
          refine ⟨p.2, ?_⟩
          rw [← hpk, Prod.mk.eta]
          exact hp
        rw [writeAll_not_mem qs _ k hnm]
        show (if k = q.1 then q.2 else m k) = v
        rcases List.mem_cons.mp hmem with heq | hmem3
        · rw [if_pos (by rw [← heq]), ← heq]
        · exact absurd ⟨v, hmem3⟩ hqs

lemma dropWhile_replicate_append (k : ℕ) (l : List ℕ) :
    List.dropWhile (fun c => c == 88) (List.replicate k 88 ++ l) =
      List.dropWhile (fun c => c == 88) l := by
  induction k with
  | zero => rfl
  | succ m ih =>
      rw [List.replicate_succ, List.cons_append, List.dropWhile_cons, if_pos (by simp)]
      exact ih

lemma rstripX_pad (pt : List ℕ) (k : ℕ) (hx : pt.getLast? ≠ some 88) :
    rstripX (pt ++ List.replicate k 88) = pt := by
  unfold rstripX
  rw [List.reverse_append, List.reverse_replicate, dropWhile_replicate_append]
  cases hrev : pt.reverse with
  | nil =>
      have hpt : pt = [] := by
        have := congrArg List.reverse hrev
        rwa [List.reverse_reverse] at this
      rw [hpt]
      rfl
  | cons h t =>
      have hhead : pt.getLast? = some h := by
        rw [List.getLast?_eq_head?_reverse, hrev]
        rfl
      have hne : ¬ ((h == 88) = true) := by
        simp only [beq_iff_eq]
        intro hc
        exact hx (by rw [hhead, hc])
      rw [List.dropWhile_cons, if_neg hne, ← hrev, List.reverse_reverse]

lemma enum_map_snd_fst (L : List (ℕ × ℕ)) :
    L.enum.map (fun ic => ic.2.1) = L.map Prod.fst := by
  have h1 : (fun ic : ℕ × (ℕ × ℕ) => ic.2.1) = Prod.fst ∘ Prod.snd := rfl
  rw [h1, ← List.map_map, List.enum_map_snd]

lemma le_grid_total (len cols : ℕ) (h : 1 ≤ cols) :
    len ≤ gridRows len cols * cols := by
  unfold gridRows
  have h1 := Nat.div_add_mod (len + cols - 1) cols
  have h2 := Nat.mod_lt (len + cols - 1) (show 0 < cols by omega)
  have h3 : (len + cols - 1) / cols * cols = cols * ((len + cols - 1) / cols) :=
    Nat.mul_comm _ _
  omega

lemma colPadded_length (pt : List ℕ) (cols : ℕ) (h : 1 ≤ cols) :
    (colPadded pt cols).length = gridRows pt.length cols * cols := by
  unfold colPadded
  rw [List.length_append, List.length_replicate]
  have := le_grid_total pt.length cols h
  omega

lemma keyOrder_length (key : List ℕ) : (keyOrder key).length = key.length := by
  unfold keyOrder
  rw [List.length_insertionSort, List.enum_length]

lemma keyOrder_fst_nodup (key : List ℕ) : ((keyOrder key).map Prod.fst).Nodup := by
  have hperm : (keyOrder key).Perm key.enum := List.perm_insertionSort orderKeyLe key.enum
  have h2 := hperm.map Prod.fst
  rw [List.enum_map_fst] at h2
  exact h2.nodup_iff.mpr (List.nodup_range _)

lemma keyOrder_fst_mem (key : List ℕ) (c : ℕ) (hc : c < key.length) :
    c ∈ (keyOrder key).map Prod.fst := by
  have hperm : (keyOrder key).Perm key.enum := List.perm_insertionSort orderKeyLe key.enum
  have h2 := hperm.map Prod.fst
  rw [List.enum_map_fst] at h2
  exact h2.mem_iff.mpr (List.mem_range.mpr hc)

theorem columnar_roundtrip (pt key : List ℕ) (hk : 1 ≤ key.length)
    (hx : pt.getLast? ≠ some 88) :
    columnar_transposition_decrypt (columnar_transposition_encrypt pt key) key = pt := by
  have hplen : (colPadded pt key.length).length =
      gridRows pt.length key.length * key.length := colPadded_length pt key.length hk
  have hblen : ∀ b ∈ (keyOrder key).map
      (fun oc => (List.range (gridRows pt.length key.length)).map
        (fun r => gridCell pt key.length r oc.1)),
      b.length = gridRows pt.length key.length := by
    intro b hb
    obtain ⟨oc, _, rfl⟩ := List.mem_map.mp hb
    rw [List.length_map, List.length_range]
  have henc : columnar_transposition_encrypt pt key =
      ((keyOrder key).map (fun oc => (List.range (gridRows pt.length key.length)).map
        (fun r => gridCell pt key.length r oc.1))).flatten := by
    unfold columnar_transposition_encrypt
    rw [List.flatMap_def]
  have hctlen : (columnar_transposition_encrypt pt key).length =
      key.length * gridRows pt.length key.length := by
    unfold columnar_transposition_encrypt
    rw [length_flatMap_const _ _ (gridRows pt.length key.length)
      (fun oc _ => by rw [List.length_map, List.length_range]), keyOrder_length]
  have hrows : (columnar_transposition_encrypt pt key).length / key.length =
      gridRows pt.length key.length := by
    rw [hctlen, Nat.mul_div_cancel_left _ (show 0 < key.length by omega)]
  unfold columnar_transposition_decrypt
  rw [hrows]
  have hcell : ∀ r, r < gridRows pt.length key.length → ∀ c, c < key.length →
      (colMapOf (columnar_transposition_encrypt pt key) key
        (gridRows pt.length key.length) c).getD r 88 =
      (colPadded pt key.length).getD (r * key.length + c) 88 := by
    intro r hr c hc
    obtain ⟨oc, hocmem, hocfst⟩ := List.mem_map.mp (keyOrder_fst_mem key c hc)
    obtain ⟨i, hi, hoci⟩ := List.mem_iff_getElem.mp hocmem
    have hienum : i < (keyOrder key).enum.length := by
      rw [List.enum_length]
      exact hi
    have hmem_enum : (i, (keyOrder key)[i]) ∈ (keyOrder key).enum := by
      have hmm := List.getElem_mem hienum
      rwa [List.getElem_enum] at hmm
    have hpair : (c, colChunk (columnar_transposition_encrypt pt key)
        (gridRows pt.length key.length) i) ∈
        (keyOrder key).enum.map (fun ic => (ic.2.1, colChunk
          (columnar_transposition_encrypt pt key) (gridRows pt.length key.length) ic.1)) := by
      refine List.mem_map.mpr ⟨(i, (keyOrder key)[i]), hmem_enum, ?_⟩
      show ((keyOrder key)[i].1, _) = _
      rw [hoci, hocfst]
    have hfstmap : ((keyOrder key).enum.map (fun ic => (ic.2.1, colChunk
        (columnar_transposition_encrypt pt key) (gridRows pt.length key.length) ic.1))).map
        Prod.fst = (keyOrder key).map Prod.fst := by
      rw [List.map_map]
      exact enum_map_snd_fst (keyOrder key)
    unfold colMapOf
    rw [writeAll_mem_nodup _ _ c _ (by rw [hfstmap]; exact keyOrder_fst_nodup key) hpair]
    have hchunk : colChunk (columnar_transposition_encrypt pt key)
        (gridRows pt.length key.length) i =
        (List.range (gridRows pt.length key.length)).map
          (fun rr => gridCell pt key.length rr c) := by
      unfold colChunk
      rw [henc, flatten_chunk _ _ i hblen (by rw [List.length_map]; exact hi)]
      rw [List.getD_eq_getElem _ _ (by rw [List.length_map]; exact hi), List.getElem_map,
        hoci, hocfst]
    rw [hchunk, getD_map_range _ _ r 88 hr]
    rfl
  have hread : gridRead (gridRows pt.length key.length) key.length
      (fun r c => (colMapOf (columnar_transposition_encrypt pt key) key
        (gridRows pt.length key.length) c).getD r 88) = colPadded pt key.length := by
    rw [gridRead_congr _ _ _
      (fun r c => (colPadded pt key.length).getD (r * key.length + c) 88) hcell]
    exact gridRead_getD _ _ _ 88 hplen
  rw [hread]
  exact rstripX_pad pt _ hx

/-- C7: the Columnar worked scenario.  With key "KEY" the sorted order
is E (column 1), K (column 0), Y (column 2); "HELLOWORLD" pads to
"HELLOWORLDXX"; encryption yields "EORXHLODLWLX" and decryption strips
the trailing filler back to "HELLOWORLD". -/
theorem claim_C7 :
    keyOrder (codes ['K', 'E', 'Y']) = [(1, 69), (0, 75), (2, 89)] ∧
    colPadded (codes ['H', 'E', 'L', 'L', 'O', 'W', 'O', 'R', 'L', 'D']) 3 =
      codes ['H', 'E', 'L', 'L', 'O', 'W', 'O', 'R', 'L', 'D', 'X', 'X'] ∧
    columnar_transposition_encrypt (codes ['H', 'E', 'L', 'L', 'O', 'W', 'O', 'R', 'L', 'D'])
      (codes ['K', 'E', 'Y']) = codes ['E', 'O', 'R', 'X', 'H', 'L', 'O', 'D', 'L', 'W', 'L', 'X'] ∧
    columnar_transposition_decrypt
      (codes ['E', 'O', 'R', 'X', 'H', 'L', 'O', 'D', 'L', 'W', 'L', 'X'])
      (codes ['K', 'E', 'Y']) = codes ['H', 'E', 'L', 'L', 'O', 'W', 'O', 'R', 'L', 'D'] := by
  refine ⟨by decide, by decide, by decide, by decide⟩

/-- C3 counterexample: with text "ABC" (which does not end in X) and the
non-empty keys "AB" and "A", the Double Columnar round trip returns "AC",
not "ABC" — the inner Columnar decode strips a filler X that belongs to
the intermediate ciphertext, so the claim as stated fails on the code. -/
theorem claim_C3_counterexample :
    1 ≤ (codes ['A', 'B']).length ∧ 1 ≤ (codes ['A']).length ∧
    (codes ['A', 'B', 'C']).getLast? ≠ some 88 ∧
    double_transposition_decrypt (double_transposition_encrypt (codes ['A', 'B', 'C'])
      (codes ['A', 'B']) (codes ['A'])) (codes ['A', 'B']) (codes ['A']) = codes ['A', 'C'] ∧
    codes ['A', 'C'] ≠ codes ['A', 'B', 'C'] := by
  refine ⟨by decide, by decide, by decide, by decide, by decide⟩

/-- C3 (amended): the Double Columnar round trip reproduces the text for
non-empty keys and text not ending in X, provided additionally the
intermediate ciphertext `columnar_transposition_encrypt text key1` does
not end in the filler letter X (otherwise the inner decode strips it). -/
theorem claim_C3 (text key1 key2 : List ℕ) (h1 : 1 ≤ key1.length)
    (h2 : 1 ≤ key2.length) (hx : text.getLast? ≠ some 88)
    (hmid : (columnar_transposition_encrypt text key1).getLast? ≠ some 88) :
    double_transposition_decrypt (double_transposition_encrypt text key1 key2)
      key1 key2 = text := by
  unfold double_transposition_encrypt double_transposition_decrypt
  rw [columnar_roundtrip _ key2 h2 hmid, columnar_roundtrip _ key1 h1 hx]

/-- C3 witness: text "ABCD" with keys "AB" and "B"; the intermediate
ciphertext "ACBD" does not end in X and the round trip is exact. -/
theorem claim_C3_witness :
    double_transposition_decrypt (double_transposition_encrypt (codes ['A', 'B', 'C', 'D'])
      (codes ['A', 'B']) (codes ['B'])) (codes ['A', 'B']) (codes ['B']) =
      codes ['A', 'B', 'C', 'D'] :=
  claim_C3 (codes ['A', 'B', 'C', 'D']) (codes ['A', 'B']) (codes ['B'])
    (by decide) (by decide) (by decide) (by decide)

-- ---------------- Myszkowski Transposition Cipher ----------------

/-- `sorted(groups.keys())`: the distinct key letters in ascending
order. -/
def keyLetters (key : List ℕ) : List ℕ :=
  (key.insertionSort (fun a b => a ≤ b)).dedup

/-- The columns carrying a given key letter, in ascending order (the
source appends indices to `groups[letter]` while scanning the key left
to right). -/
def groupCols (key : List ℕ) (l : ℕ) : List ℕ :=
  (key.enum.filter (fun ic => ic.2 == l)).map Prod.fst

/-- Number of ciphertext characters consumed for a letter group (the
source distinguishes single and repeated letters). -/
def myszGroupLen (key : List ℕ) (rows l : ℕ) : ℕ :=
  if (groupCols key l).length = 1 then rows else rows * (groupCols key l).length

/-- The characters a letter group contributes to the ciphertext: a single
column top-to-bottom, or — for a repeated letter — its columns read
row-major. -/
def myszGroup (pt key : List ℕ) (l : ℕ) : List ℕ :=
  if (groupCols key l).length = 1 then
    (List.range (gridRows pt.length key.length)).map
      (fun r => gridCell pt key.length r ((groupCols key l).headD 0))
  else
    (List.range (gridRows pt.length key.length)).flatMap
      (fun r => (groupCols key l).map (fun c => gridCell pt key.length r c))

def myszkowski_encrypt (pt key : List ℕ) : List ℕ :=
  (keyLetters key).flatMap (myszGroup pt key)

/-- Re-fill the grid letter group by letter group, consuming the
ciphertext; a cell `(r, c)` of a group gets character `r * k + j` of the
group slice, `j` the position of `c` among the group columns. -/
def myszFill (rows : ℕ) (key : List ℕ) : List ℕ → List ℕ → (ℕ × ℕ → ℕ) → (ℕ × ℕ → ℕ)
  | [], _, m => m
  | l :: ls, ct, m =>
      myszFill rows key ls (ct.drop (myszGroupLen key rows l))
        (fun rc =>
          if rc.2 ∈ groupCols key l ∧ rc.1 < rows then
            (ct.take (myszGroupLen key rows l)).getD
              (rc.1 * (groupCols key l).length + (groupCols key l).indexOf rc.2) 88
          else m rc)

def myszkowski_decrypt (ct key : List ℕ) : List ℕ :=
  rstripX (gridRead (ct.length / key.length) key.length
    (fun r c => myszFill (ct.length / key.length) key (keyLetters key) ct
      (fun _ => 88) (r, c)))

lemma keyLetters_nodup (key : List ℕ) : (keyLetters key).Nodup :=
  List.nodup_dedup _

lemma mem_keyLetters (key : List ℕ) (l : ℕ) : l ∈ keyLetters key ↔ l ∈ key := by
  unfold keyLetters
  rw [List.mem_dedup]
  exact (List.perm_insertionSort (fun a b => a ≤ b) key).mem_iff

lemma mem_enum_eq (key : List ℕ) (c x : ℕ) (h : (c, x) ∈ key.enum) :
    ∃ hc : c < key.length, x = key[c] := by
  obtain ⟨i, hi, hix⟩ := List.mem_iff_getElem.mp h
  rw [List.getElem_enum] at hix
  obtain ⟨h1, h2⟩ := Prod.mk.injEq _ _ _ _ ▸ hix
  subst h1
  rw [List.enum_length] at hi
  exact ⟨hi, h2.symm⟩

lemma mem_groupCols_letter (key : List ℕ) (c l : ℕ) (h : c ∈ groupCols key l) :
    ∃ hc : c < key.length, key[c] = l := by
  unfold groupCols at h
  obtain ⟨ic, hic, hfst⟩ := List.mem_map.mp h
  obtain ⟨hmem, hsnd⟩ := List.mem_filter.mp hic
  have hsnd' : ic.2 = l := by simpa using hsnd
  have : (c, l) ∈ key.enum := by
    rw [← hfst, ← hsnd', Prod.mk.eta]
    exact hmem
  obtain ⟨hc, hx⟩ := mem_enum_eq key c l this
  exact ⟨hc, hx.symm⟩

lemma self_mem_groupCols (key : List ℕ) (c : ℕ) (hc : c < key.length) :
    c ∈ groupCols key (key[c]) := by
  unfold groupCols
  refine List.mem_map.mpr ⟨(c, key[c]), ?_, rfl⟩
  rw [List.mem_filter]
  constructor
  · have hlen : c < key.enum.length := by rw [List.enum_length]; exact hc
    have := List.getElem_mem hlen
    rwa [List.getElem_enum] at this
  · simp

lemma groupCols_disjoint (key : List ℕ) (c l1 l2 : ℕ) (h1 : c ∈ groupCols key l1)
    (h2 : c ∈ groupCols key l2) : l1 = l2 := by
  obtain ⟨hc1, he1⟩ := mem_groupCols_letter key c l1 h1
  obtain ⟨hc2, he2⟩ := mem_groupCols_letter key c l2 h2
  rw [← he1, ← he2]

lemma groupCols_count (key : List ℕ) (l : ℕ) :
    (groupCols key l).length = List.count l key := by
  unfold groupCols
  rw [List.length_map, ← List.countP_eq_length_filter]
  have h1 : (fun ic : ℕ × ℕ => ic.2 == l) = ((fun x => x == l) ∘ Prod.snd) := rfl
  rw [h1, ← List.countP_map, List.enum_map_snd, ← List.count_eq_countP]

lemma sum_groupCols (key : List ℕ) :
    ((keyLetters key).map (fun l => (groupCols key l).length)).sum = key.length := by
  have hperm : (key.insertionSort (fun a b => a ≤ b)).Perm key :=
    List.perm_insertionSort _ _
  have hcong : (keyLetters key).map (fun l => (groupCols key l).length) =
      (keyLetters key).map (fun l =>
        List.count l (key.insertionSort (fun a b => a ≤ b))) := by
    apply List.map_congr_left
    intro l _
    rw [groupCols_count, hperm.count_eq]
  rw [hcong]
  unfold keyLetters
  rw [List.sum_map_count_dedup_eq_length, List.length_insertionSort]

lemma flatMap_singleton_map {α β : Type} (L : List α) (f : α → β) :
    L.flatMap (fun a => [f a]) = L.map f := by
  induction L with
  | nil => rfl
  | cons a t ih =>
      rw [List.flatMap_cons, ih]
      rfl

lemma myszGroup_rowMajor (pt key : List ℕ) (l : ℕ) (hne : groupCols key l ≠ []) :
    myszGroup pt key l =
      ((List.range (gridRows pt.length key.length)).map
        (fun r => (groupCols key l).map (fun c => gridCell pt key.length r c))).flatten := by
  unfold myszGroup
  split_ifs with h1
  · obtain ⟨c0, hc0⟩ := List.length_eq_one.mp h1
    rw [hc0, ← List.flatMap_def,
      ← flatMap_singleton_map (List.range (gridRows pt.length key.length))
        (fun r => gridCell pt key.length r ([c0].headD 0))]
    rfl
  · rw [← List.flatMap_def]

lemma myszGroup_length (pt key : List ℕ) (l : ℕ) :
    (myszGroup pt key l).length =
      gridRows pt.length key.length * (groupCols key l).length := by
  unfold myszGroup
  split_ifs with h1
  · rw [List.length_map, List.length_range, h1, Nat.mul_one]
  · rw [length_flatMap_const _ _ (groupCols key l).length
      (fun r _ => List.length_map _ _), List.length_range]

lemma myszGroupLen_eq (key : List ℕ) (rows l : ℕ) :
    myszGroupLen key rows l = rows * (groupCols key l).length := by
  unfold myszGroupLen
  split_ifs with h1
  · rw [h1, Nat.mul_one]
  · rfl

lemma sum_map_mul_left (w : ℕ) (f : ℕ → ℕ) (L : List ℕ) :
    (L.map (fun l => w * f l)).sum = w * (L.map f).sum := by
  induction L with
  | nil => simp
  | cons a t ih => simp [ih, Nat.mul_add]

lemma mysz_enc_length (pt key : List ℕ) :
    (myszkowski_encrypt pt key).length =
      key.length * gridRows pt.length key.length := by
  unfold myszkowski_encrypt
  rw [List.length_flatMap]
  have h1 : List.map (List.length ∘ myszGroup pt key) (keyLetters key) =
      List.map (fun l => gridRows pt.length key.length * (groupCols key l).length)
        (keyLetters key) :=
    List.map_congr_left (fun l _ => myszGroup_length pt key l)
  rw [h1, sum_map_mul_left, sum_groupCols, Nat.mul_comm]

lemma myszFill_cons (rows : ℕ) (key : List ℕ) (l : ℕ) (ls : List ℕ) (ct : List ℕ)
    (m : ℕ × ℕ → ℕ) :
    myszFill rows key (l :: ls) ct m =
      myszFill rows key ls (ct.drop (myszGroupLen key rows l))
        (fun rc =>
          if rc.2 ∈ groupCols key l ∧ rc.1 < rows then
            (ct.take (myszGroupLen key rows l)).getD
              (rc.1 * (groupCols key l).length + (groupCols key l).indexOf rc.2) 88
          else m rc) := rfl

lemma myszFill_not_mem (rows : ℕ) (key : List ℕ) : ∀ (ls : List ℕ) (ct : List ℕ)
    (m : ℕ × ℕ → ℕ) (rc : ℕ × ℕ),
    (∀ l ∈ ls, rc.2 ∉ groupCols key l) → myszFill rows key ls ct m rc = m rc := by
  intro ls
  induction ls with
  | nil => intro ct m rc _; rfl
  | cons l ls' ih =>
      intro ct m rc h
      rw [myszFill_cons, ih _ _ rc (fun x hx => h x (List.mem_cons_of_mem l hx))]
      exact if_neg (fun hc => h l (List.mem_cons_self l ls') hc.1)

lemma myszFill_eval (pt key : List ℕ) : ∀ (ls : List ℕ) (m : ℕ × ℕ → ℕ) (r c : ℕ),
    ls.Nodup → r < gridRows pt.length key.length →
    (∃ l ∈ ls, c ∈ groupCols key l) →
    myszFill (gridRows pt.length key.length) key ls
      ((ls.map (myszGroup pt key)).flatten) m (r, c) = gridCell pt key.length r c := by
  intro ls
  induction ls with
  | nil =>
      intro m r c _ _ hex
      simp at hex
  | cons l ls' ih =>
      intro m r c hnd hr hex
      have hct : ((l :: ls').map (myszGroup pt key)).flatten =
          myszGroup pt key l ++ ((ls'.map (myszGroup pt key)).flatten) := by
        rw [List.map_cons, List.flatten_cons]
      have hlen : (myszGroup pt key l).length =
          myszGroupLen key (gridRows pt.length key.length) l := by
        rw [myszGroup_length, myszGroupLen_eq]
      have hdrop : (((l :: ls').map (myszGroup pt key)).flatten).drop
          (myszGroupLen key (gridRows pt.length key.length) l) =
          (ls'.map (myszGroup pt key)).flatten := by
        rw [hct, ← hlen, List.drop_left]
      have htake : (((l :: ls').map (myszGroup pt key)).flatten).take
          (myszGroupLen key (gridRows pt.length key.length) l) = myszGroup pt key l := by
        rw [hct, ← hlen, List.take_left]
      rw [myszFill_cons, hdrop]
      by_cases hcl : c ∈ groupCols key l
      · have hnot : ∀ l' ∈ ls', (r, c).2 ∉ groupCols key l' := by
          intro l' hl' hc'
          have heq : l = l' := groupCols_disjoint key c l l' hcl hc'
          exact (List.nodup_cons.mp hnd).1 (heq ▸ hl')
        rw [myszFill_not_mem (gridRows pt.length key.length) key ls' _ _ (r, c) hnot]
        rw [if_pos (show (r, c).2 ∈ groupCols key l ∧ (r, c).1 <
          gridRows pt.length key.length from ⟨hcl, hr⟩)]
        rw [htake]
        have hkpos : (groupCols key l).indexOf c < (groupCols key l).length :=
          List.indexOf_lt_length.mpr hcl
        have hgne : groupCols key l ≠ [] := by
          intro hnil
          rw [hnil] at hcl
          simp at hcl
        rw [myszGroup_rowMajor pt key l hgne]
        rw [flatten_uniform_getD _ (groupCols key l).length r
          ((groupCols key l).indexOf c) 88
          (fun b hb => by
            obtain ⟨rr, _, rfl⟩ := List.mem_map.mp hb
            rw [List.length_map])
          (by rw [List.length_map, List.length_range]; exact hr) hkpos]
        rw [getD_map_range _ (gridRows pt.length key.length) r [] hr]
        rw [List.getD_eq_getElem _ 88 (by rw [List.length_map]; exact hkpos),
          List.getElem_map, List.getElem_indexOf hkpos]
      · obtain ⟨l0, hl0mem, hl0c⟩ := hex
        have hl0' : l0 ∈ ls' := by
          rcases List.mem_cons.mp hl0mem with rfl | h
          · exact absurd hl0c hcl
          · exact h
        exact ih _ r c (List.nodup_cons.mp hnd).2 hr ⟨l0, hl0', hl0c⟩

theorem mysz_roundtrip (pt key : List ℕ) (hk : 1 ≤ key.length)
    (hx : pt.getLast? ≠ some 88) :
    myszkowski_decrypt (myszkowski_encrypt pt key) key = pt := by
  have hplen := colPadded_length pt key.length hk
  have henc : myszkowski_encrypt pt key =
      ((keyLetters key).map (myszGroup pt key)).flatten := by
    unfold myszkowski_encrypt
    rw [List.flatMap_def]
  have hrows : (myszkowski_encrypt pt key).length / key.length =
      gridRows pt.length key.length := by
    rw [mysz_enc_length, Nat.mul_div_cancel_left _ (show 0 < key.length by omega)]
  unfold myszkowski_decrypt
  rw [hrows]
  have hcell : ∀ r, r < gridRows pt.length key.length → ∀ c, c < key.length →
      myszFill (gridRows pt.length key.length) key (keyLetters key)
        (myszkowski_encrypt pt key) (fun _ => 88) (r, c) =
      (colPadded pt key.length).getD (r * key.length + c) 88 := by
    intro r hr c hc
    rw [henc]
    have hex : ∃ l ∈ keyLetters key, c ∈ groupCols key l := by
      refine ⟨key[c], ?_, self_mem_groupCols key c hc⟩
      rw [mem_keyLetters]
      exact List.getElem_mem hc
    exact myszFill_eval pt key (keyLetters key) _ r c (keyLetters_nodup key) hr hex
  rw [gridRead_congr _ _ _
    (fun r c => (colPadded pt key.length).getD (r * key.length + c) 88) hcell,
    gridRead_getD _ _ _ 88 hplen]
  exact rstripX_pad pt _ hx

/-- C2: for a non-empty key and text that does not end in the filler
letter X (code 88), both the Columnar and the Myszkowski round trips
reproduce the plaintext exactly, the trailing filler of the padded grid
being the only residue removed. -/
theorem claim_C2 (text key : List ℕ) (hk : 1 ≤ key.length)
    (hx : text.getLast? ≠ some 88) :
    columnar_transposition_decrypt (columnar_transposition_encrypt text key) key = text ∧
    myszkowski_decrypt (myszkowski_encrypt text key) key = text :=
  ⟨columnar_roundtrip text key hk hx, mysz_roundtrip text key hk hx⟩

/-- C2 witness: text "TOMATO" with the repeated-letter key "ABA". -/
theorem claim_C2_witness :
    columnar_transposition_decrypt (columnar_transposition_encrypt
      (codes ['T', 'O', 'M', 'A', 'T', 'O']) (codes ['A', 'B', 'A']))
      (codes ['A', 'B', 'A']) = codes ['T', 'O', 'M', 'A', 'T', 'O'] ∧
    myszkowski_decrypt (myszkowski_encrypt
      (codes ['T', 'O', 'M', 'A', 'T', 'O']) (codes ['A', 'B', 'A']))
      (codes ['A', 'B', 'A']) = codes ['T', 'O', 'M', 'A', 'T', 'O'] :=
  claim_C2 (codes ['T', 'O', 'M', 'A', 'T', 'O']) (codes ['A', 'B', 'A'])
    (by decide) (by decide)

-- ---------------- Route (Spiral Transposition) Cipher ----------------

/-- Integer interval `[a, b)` as a list, ascending. -/
def intRange (a b : ℤ) : List ℤ := (List.range (b - a).toNat).map (fun i : ℕ => a + i)

/-- One lap of the clockwise inward spiral: top row left-to-right, right
column top-to-bottom, then (guarded exactly as in the source, with the
boundaries already advanced) bottom row right-to-left and left column
bottom-to-top, followed by the next lap on the shrunken rectangle.  The
fuel strictly exceeds the number of laps, which is proved alongside the
coverage lemma. -/
def spiralGo : ℕ → ℤ → ℤ → ℤ → ℤ → List (ℤ × ℤ)
  | 0, _, _, _, _ => []
  | fuel + 1, top, bottom, left, right =>
      if top ≤ bottom ∧ left ≤ right then
        (intRange left (right + 1)).map (fun c => (top, c)) ++
          ((intRange (top + 1) (bottom + 1)).map (fun r => (r, right)) ++
            ((if top + 1 ≤ bottom then
                ((intRange left (right - 1 + 1)).reverse).map (fun c => (bottom, c))
              else []) ++
              ((if left ≤ right - 1 then
                  ((intRange (top + 1)
                    ((if top + 1 ≤ bottom then bottom - 1 else bottom) + 1)).reverse).map
                    (fun r => (r, left))
                else []) ++
                spiralGo fuel (top + 1)
                  (if top + 1 ≤ bottom then bottom - 1 else bottom)
                  (if left ≤ right - 1 then left + 1 else left) (right - 1))))
      else []

def spiral (rows cols : ℕ) : List (ℤ × ℤ) :=
  spiralGo (rows + cols + 1) 0 ((rows : ℤ) - 1) 0 ((cols : ℤ) - 1)

def route_cipher_encrypt (pt : List ℕ) (rows cols : ℕ) : List ℕ :=
  (spiral rows cols).map (fun rc =>
    (pt ++ List.replicate (rows * cols - pt.length) 88).getD (rc.1 * cols + rc.2).toNat 88)

def route_cipher_decrypt (ct : List ℕ) (rows cols : ℕ) : List ℕ :=
  gridRead rows cols (fun r c =>
    writeAll ((spiral rows cols).zip ct) (fun _ => 88) ((r : ℤ), (c : ℤ)))

lemma mem_intRange (a b x : ℤ) : x ∈ intRange a b ↔ a ≤ x ∧ x < b := by
  unfold intRange
  simp only [List.mem_map, List.mem_range]
  constructor
  · rintro ⟨i, hi, rfl⟩
    omega
  · rintro ⟨h1, h2⟩
    refine ⟨(x - a).toNat, by omega, ?_⟩
    omega

lemma spiralGo_succ (f : ℕ) (top bottom left right : ℤ) :
    spiralGo (f + 1) top bottom left right =
      if top ≤ bottom ∧ left ≤ right then
        (intRange left (right + 1)).map (fun c => (top, c)) ++
          ((intRange (top + 1) (bottom + 1)).map (fun r => (r, right)) ++
            ((if top + 1 ≤ bottom then
                ((intRange left (right - 1 + 1)).reverse).map (fun c => (bottom, c))
              else []) ++
              ((if left ≤ right - 1 then
                  ((intRange (top + 1)
                    ((if top + 1 ≤ bottom then bottom - 1 else bottom) + 1)).reverse).map
                    (fun r => (r, left))
                else []) ++
                spiralGo f (top + 1)
                  (if top + 1 ≤ bottom then bottom - 1 else bottom)
                  (if left ≤ right - 1 then left + 1 else left) (right - 1))))
      else [] := rfl

lemma spiralGo_cover : ∀ (fuel : ℕ) (top bottom left right r c : ℤ),
    ((bottom + 1 - top) + (right + 1 - left)).toNat ≤ fuel →
    top ≤ r → r ≤ bottom → left ≤ c → c ≤ right →
    (r, c) ∈ spiralGo fuel top bottom left right := by
  intro fuel
  induction fuel with
  | zero =>
      intro top bottom left right r c hf h1 h2 h3 h4
      exfalso
      omega
  | succ f ih =>
      intro top bottom left right r c hf h1 h2 h3 h4
      rw [spiralGo_succ, if_pos (show top ≤ bottom ∧ left ≤ right from ⟨by omega, by omega⟩)]
      by_cases hr0 : r = top
      · subst hr0
        exact List.mem_append.mpr (Or.inl
          (List.mem_map.mpr ⟨c, (mem_intRange _ _ _).mpr ⟨h3, by omega⟩, rfl⟩))
      · apply List.mem_append.mpr
        apply Or.inr
        by_cases hcr : c = right
        · subst hcr
          exact List.mem_append.mpr (Or.inl
            (List.mem_map.mpr ⟨r, (mem_intRange _ _ _).mpr ⟨by omega, by omega⟩, rfl⟩))
        · apply List.mem_append.mpr
          apply Or.inr
          apply List.mem_append.mpr
          by_cases hrb : r = bottom
          · apply Or.inl
            rw [if_pos (show top + 1 ≤ bottom by omega), hrb]
            exact List.mem_map.mpr ⟨c, List.mem_reverse.mpr
              ((mem_intRange _ _ _).mpr ⟨h3, by omega⟩), rfl⟩
          · apply Or.inr
            apply List.mem_append.mpr
            by_cases hcl : c = left
            · apply Or.inl
              rw [if_pos (show left ≤ right - 1 by omega), hcl]
              refine List.mem_map.mpr ⟨r, List.mem_reverse.mpr
                ((mem_intRange _ _ _).mpr ⟨by omega, ?_⟩), rfl⟩
              by_cases hb : top + 1 ≤ bottom
              · rw [if_pos hb]
                omega
              · rw [if_neg hb]
                omega
            · apply Or.inr
              by_cases hb : top + 1 ≤ bottom <;> by_cases hl : left ≤ right - 1
              · rw [if_pos hb, if_pos hl] at *
                exact ih (top + 1) (bottom - 1) (left + 1) (right - 1) r c
                  (by omega) (by omega) (by omega) (by omega) (by omega)
              · rw [if_pos hb, if_neg hl] at *
                exact ih (top + 1) (bottom - 1) left (right - 1) r c
                  (by omega) (by omega) (by omega) (by omega) (by omega)
              · rw [if_neg hb, if_pos hl] at *
                exact ih (top + 1) bottom (left + 1) (right - 1) r c
                  (by omega) (by omega) (by omega) (by omega) (by omega)
              · rw [if_neg hb, if_neg hl] at *
                exact ih (top + 1) bottom left (right - 1) r c
                  (by omega) (by omega) (by omega) (by omega) (by omega)

lemma spiral_cover (rows cols : ℕ) (r c : ℕ) (hr : r < rows) (hc : c < cols) :
    (((r : ℕ) : ℤ), ((c : ℕ) : ℤ)) ∈ spiral rows cols := by
  unfold spiral
  apply spiralGo_cover (rows + cols + 1) 0 ((rows : ℤ) - 1) 0 ((cols : ℤ) - 1)
  · omega
  · omega
  · omega
  · omega
  · omega

lemma toNat_grid (r cols c : ℕ) : (((r : ℤ)) * cols + c).toNat = r * cols + c := by
  have h : ((r : ℤ)) * cols + c = ((r * cols + c : ℕ) : ℤ) := by push_cast; ring
  rw [h, Int.toNat_natCast]

/-- C4: for `rows, cols ≥ 1` and text fitting into the grid, the Route
round trip returns the plaintext right-padded with the filler letter X
(code 88) to exactly `rows * cols` characters; decryption does not strip
the filler. -/
theorem claim_C4 (text : List ℕ) (rows cols : ℕ) (hr : 1 ≤ rows) (hc : 1 ≤ cols)
    (hlen : text.length ≤ rows * cols) :
    route_cipher_decrypt (route_cipher_encrypt text rows cols) rows cols =
      text ++ List.replicate (rows * cols - text.length) 88 := by
  have hplen : (text ++ List.replicate (rows * cols - text.length) 88).length =
      rows * cols := by
    rw [List.length_append, List.length_replicate]
    omega
  have hzip : (spiral rows cols).zip (route_cipher_encrypt text rows cols) =
      (spiral rows cols).map (fun s =>
        (s, (text ++ List.replicate (rows * cols - text.length) 88).getD
          (s.1 * cols + s.2).toNat 88)) := by
    unfold route_cipher_encrypt
    nth_rewrite 1 [← List.map_id (spiral rows cols)]
    rw [List.zip_map']
    simp only [id_eq]
  have hval : ∀ r, r < rows → ∀ c, c < cols →
      writeAll ((spiral rows cols).zip (route_cipher_encrypt text rows cols))
        (fun _ => 88) ((r : ℤ), (c : ℤ)) =
      (text ++ List.replicate (rows * cols - text.length) 88).getD (r * cols + c) 88 := by
    intro r hrr c hcc
    rw [hzip]
    have hmem : (((r : ℤ), (c : ℤ)),
        (text ++ List.replicate (rows * cols - text.length) 88).getD
          (((r : ℤ) * cols + (c : ℤ))).toNat 88) ∈
        (spiral rows cols).map (fun s =>
          (s, (text ++ List.replicate (rows * cols - text.length) 88).getD
            (s.1 * cols + s.2).toNat 88)) :=
      List.mem_map.mpr ⟨((r : ℤ), (c : ℤ)), spiral_cover rows cols r c hrr hcc, rfl⟩
    have huniq : ∀ w, (((r : ℤ), (c : ℤ)), w) ∈
        (spiral rows cols).map (fun s =>
          (s, (text ++ List.replicate (rows * cols - text.length) 88).getD
            (s.1 * cols + s.2).toNat 88)) →
        w = (text ++ List.replicate (rows * cols - text.length) 88).getD
          (((r : ℤ) * cols + (c : ℤ))).toNat 88 := by
      intro w hw
      obtain ⟨s, _, heq⟩ := List.mem_map.mp hw
      obtain ⟨hs, hwv⟩ := Prod.mk.injEq _ _ _ _ ▸ heq
      rw [← hwv, hs]
    rw [writeAll_mem_const _ _ _ _ hmem huniq, toNat_grid]
  unfold route_cipher_decrypt
  rw [gridRead_congr rows cols _
    (fun r c => (text ++ List.replicate (rows * cols - text.length) 88).getD
      (r * cols + c) 88) hval,
    gridRead_getD _ _ _ 88 hplen]

/-- C4 witness: a 2 by 3 grid with text "AB" padded to "ABXXXX". -/
theorem claim_C4_witness :
    route_cipher_decrypt (route_cipher_encrypt (codes ['A', 'B']) 2 3) 2 3 =
      codes ['A', 'B'] ++ List.replicate (2 * 3 - (codes ['A', 'B']).length) 88 :=
  claim_C4 (codes ['A', 'B']) 2 3 (by decide) (by decide) (by decide)

-- ---------------- Playfair Cipher ----------------

/-- Python `.replace("j", "i")` on a (lowered) code point. -/
def replaceJ (c : ℕ) : ℕ := if c = 106 then 105 else c

/-- Normalisation shared by Playfair encryption and decryption:
lowercase, fold j into i, strip non-alphabetic characters. -/
def playfairNormalize (text : List ℕ) : List ℕ :=
  ((text.map lowerCode).map replaceJ).filter isAlphaCode

/-- The 25-letter alphabet "abcdefghiklmnopqrstuvwxyz" (no j). -/
def playfairAlphabet : List ℕ :=
  codes ['a', 'b', 'c', 'd', 'e', 'f', 'g', 'h', 'i', 'k', 'l', 'm', 'n',
    'o', 'p', 'q', 'r', 's', 't', 'u', 'v', 'w', 'x', 'y', 'z']

/-- The unique alphabetic key letters in key order (the source's `seen`
set together with `table.append`). -/
def tableKeyPart (key : List ℕ) : List ℕ :=
  ((key.map lowerCode).map replaceJ).foldl
    (fun acc c => if isAlphaCode c ∧ c ∉ acc then acc ++ [c] else acc) []

/-- The 5x5 Playfair table, flattened row-major: unique key letters first,
then the remaining alphabet letters in order. -/
def tableChars (key : List ℕ) : List ℕ :=
  tableKeyPart key ++ playfairAlphabet.filter (fun c => c ∉ tableKeyPart key)

/-- `find_position`: row-major scan of the 5x5 table, as the index of the
(lowered, j-folded) letter. -/
def find_position (c : ℕ) (key : List ℕ) : ℕ × ℕ :=
  ((tableChars key).indexOf (replaceJ (lowerCode c)) / 5,
   (tableChars key).indexOf (replaceJ (lowerCode c)) % 5)

/-- `table[r][c]` of the flattened 5x5 table. -/
def tableAt (key : List ℕ) (r c : ℕ) : ℕ := (tableChars key).getD (r * 5 + c) 88

/-- The encryption digraph split: a doubled letter or a trailing single
letter is paired with 'x' (code 120), consuming one character; otherwise
the two letters pair off. -/
def playfair_digraphs : List ℕ → List (ℕ × ℕ)
  | [] => []
  | [a] => [(a, 120)]
  | a :: b :: rest =>
      if a = b then (a, 120) :: playfair_digraphs (b :: rest)
      else (a, b) :: playfair_digraphs rest

/-- One encrypted digraph: same row shifts right, same column shifts
down, otherwise the rectangle swap. -/
def playfairPairEnc (key : List ℕ) (p : ℕ × ℕ) : List ℕ :=
  if (find_position p.1 key).1 = (find_position p.2 key).1 then
    [tableAt key (find_position p.1 key).1 (((find_position p.1 key).2 + 1) % 5),
     tableAt key (find_position p.2 key).1 (((find_position p.2 key).2 + 1) % 5)]
  else if (find_position p.1 key).2 = (find_position p.2 key).2 then
    [tableAt key (((find_position p.1 key).1 + 1) % 5) (find_position p.1 key).2,
     tableAt key (((find_position p.2 key).1 + 1) % 5) (find_position p.2 key).2]
  else
    [tableAt key (find_position p.1 key).1 (find_position p.2 key).2,
     tableAt key (find_position p.2 key).1 (find_position p.1 key).2]

def playfair_encrypt (pt key : List ℕ) : List ℕ :=
  ((playfair_digraphs (playfairNormalize pt)).flatMap (playfairPairEnc key)).map upperCode

/-- One decrypted digraph: same row shifts left, same column shifts up
(Python `(i - 1) % 5` on the nonnegative index), rectangle swap
unchanged. -/
def playfairPairDec (key : List ℕ) (p : ℕ × ℕ) : List ℕ :=
  if (find_position p.1 key).1 = (find_position p.2 key).1 then
    [tableAt key (find_position p.1 key).1 ((((find_position p.1 key).2 : ℤ) - 1) % 5).toNat,
     tableAt key (find_position p.2 key).1 ((((find_position p.2 key).2 : ℤ) - 1) % 5).toNat]
  else if (find_position p.1 key).2 = (find_position p.2 key).2 then
    [tableAt key ((((find_position p.1 key).1 : ℤ) - 1) % 5).toNat (find_position p.1 key).2,
     tableAt key ((((find_position p.2 key).1 : ℤ) - 1) % 5).toNat (find_position p.2 key).2]
  else
    [tableAt key (find_position p.1 key).1 (find_position p.2 key).2,
     tableAt key (find_position p.2 key).1 (find_position p.1 key).2]

/-- Decryption splits the ciphertext into plain consecutive pairs
(`ciphertext[i:i+2]`), the same pairing as the Hill cipher. -/
def playfair_decrypt (ct key : List ℕ) : List ℕ :=
  ((hillPairs (playfairNormalize ct)).flatMap (playfairPairDec key)).map upperCode

/-- Claim C8 counterexample: with key "MONARCHY" the code encrypts
"HELLO" to "CFSUPM", not to the spec's "ELSUPM", and decrypting the
spec's "ELSUPM" yields "CELXLO", not "HELXLO". -/
theorem claim_C8_counterexample :
    playfair_encrypt (codes ['H', 'E', 'L', 'L', 'O'])
        (codes ['M', 'O', 'N', 'A', 'R', 'C', 'H', 'Y']) ≠
      codes ['E', 'L', 'S', 'U', 'P', 'M'] ∧
    playfair_decrypt (codes ['E', 'L', 'S', 'U', 'P', 'M'])
        (codes ['M', 'O', 'N', 'A', 'R', 'C', 'H', 'Y']) ≠
      codes ['H', 'E', 'L', 'X', 'L', 'O'] := by
  decide

/-- Claim C8 (amended): with key "MONARCHY" the plaintext "HELLO" is
split into the digraphs he, lx, lo; playfair_encrypt("HELLO",
"MONARCHY") = "CFSUPM"; and playfair_decrypt("CFSUPM", "MONARCHY") =
"HELXLO" (the inserted 'x' separator is not removed on decode). -/
theorem claim_C8 :
    playfair_digraphs (playfairNormalize (codes ['H', 'E', 'L', 'L', 'O'])) =
      [(104, 101), (108, 120), (108, 111)] ∧
    playfair_encrypt (codes ['H', 'E', 'L', 'L', 'O'])
        (codes ['M', 'O', 'N', 'A', 'R', 'C', 'H', 'Y']) =
      codes ['C', 'F', 'S', 'U', 'P', 'M'] ∧
    playfair_decrypt (codes ['C', 'F', 'S', 'U', 'P', 'M'])
        (codes ['M', 'O', 'N', 'A', 'R', 'C', 'H', 'Y']) =
      codes ['H', 'E', 'L', 'X', 'L', 'O'] := by
  decide

-- ---------------- Playfair invariants (claim C10) ----------------

lemma playfairAlphabet_prop : ∀ c ∈ playfairAlphabet, 97 ≤ c ∧ c ≤ 122 ∧ c ≠ 106 := by
  decide

lemma replaceJ_lower_prop (x : ℕ) (h : isAlphaCode (replaceJ (lowerCode x)) = true) :
    97 ≤ replaceJ (lowerCode x) ∧ replaceJ (lowerCode x) ≤ 122 ∧
      replaceJ (lowerCode x) ≠ 106 := by
  simp only [isAlphaCode, replaceJ, lowerCode, decide_eq_true_eq] at h
  simp only [replaceJ, lowerCode]
  split_ifs at h ⊢ <;> omega

lemma mem_dedupFold : ∀ (L acc : List ℕ) (c : ℕ),
    c ∈ L.foldl (fun acc c => if isAlphaCode c ∧ c ∉ acc then acc ++ [c] else acc) acc →
    c ∈ acc ∨ (c ∈ L ∧ isAlphaCode c = true) := by
  intro L
  induction L with
  | nil => intro acc c h; exact Or.inl h
  | cons x xs ih =>
    intro acc c h
    rw [List.foldl_cons] at h
    rcases ih _ c h with hacc | ⟨hmem, halpha⟩
    · split_ifs at hacc with hx
      · rcases List.mem_append.mp hacc with h1 | h2
        · exact Or.inl h1
        · have hcx : c = x := by simpa using h2
          subst hcx
          exact Or.inr ⟨by simp, hx.1⟩
      · exact Or.inl hacc
    · exact Or.inr ⟨List.mem_cons_of_mem _ hmem, halpha⟩

lemma tableKeyPart_prop (key : List ℕ) :
    ∀ c ∈ tableKeyPart key, 97 ≤ c ∧ c ≤ 122 ∧ c ≠ 106 := by
  intro c hc
  rcases mem_dedupFold _ _ _ hc with h | ⟨hmem, halpha⟩
  · simp at h
  · rcases List.mem_map.mp hmem with ⟨y, hy, rfl⟩
    rcases List.mem_map.mp hy with ⟨x, hx, rfl⟩
    exact replaceJ_lower_prop x halpha

lemma tableChars_prop (key : List ℕ) :
    ∀ c ∈ tableChars key, 97 ≤ c ∧ c ≤ 122 ∧ c ≠ 106 := by
  intro c hc
  rcases List.mem_append.mp hc with h | h
  · exact tableKeyPart_prop key c h
  · exact playfairAlphabet_prop c (List.mem_of_mem_filter h)

lemma tableAt_prop (key : List ℕ) (r c : ℕ) :
    (97 ≤ tableAt key r c ∧ tableAt key r c ≤ 122 ∧ tableAt key r c ≠ 106) ∨
      tableAt key r c = 88 := by
  by_cases h : r * 5 + c < (tableChars key).length
  · left
    rw [tableAt, List.getD_eq_getElem _ _ h]
    exact tableChars_prop key _ (List.getElem_mem _)
  · right
    rw [tableAt, List.getD_eq_default _ _ (by omega)]

lemma upper_tableAt_prop (key : List ℕ) (r c : ℕ) :
    65 ≤ upperCode (tableAt key r c) ∧ upperCode (tableAt key r c) ≤ 90 ∧
      upperCode (tableAt key r c) ≠ 74 := by
  rcases tableAt_prop key r c with ⟨h1, h2, h3⟩ | h
  · simp only [upperCode]
    split_ifs with h4 <;> omega
  · rw [h]
    decide

lemma mem_playfairPairEnc (key : List ℕ) (p : ℕ × ℕ) (x : ℕ)
    (h : x ∈ playfairPairEnc key p) : ∃ r c, x = tableAt key r c := by
  rw [playfairPairEnc] at h
  split_ifs at h <;>
    simp only [List.mem_cons, List.mem_singleton, List.not_mem_nil, or_false] at h <;>
    rcases h with h | h <;> exact ⟨_, _, h⟩

lemma playfairPairEnc_length (key : List ℕ) (p : ℕ × ℕ) :
    (playfairPairEnc key p).length = 2 := by
  rw [playfairPairEnc]
  split_ifs <;> rfl

lemma playfair_digraphs_le_aux : ∀ (n : ℕ) (L : List ℕ), L.length ≤ n →
    L.length ≤ 2 * (playfair_digraphs L).length := by
  intro n
  induction n with
  | zero =>
    intro L h
    match L with
    | [] => simp [playfair_digraphs]
    | a :: t => simp at h
  | succ n ih =>
    intro L h
    match L with
    | [] => simp [playfair_digraphs]
    | [a] => simp [playfair_digraphs]
    | a :: b :: rest =>
      simp only [playfair_digraphs]
      split_ifs with hab
      · have h2 := ih (b :: rest) (by simp at h ⊢; omega)
        simp only [List.length_cons] at h2 ⊢
        omega
      · have h2 := ih rest (by simp at h ⊢; omega)
        simp only [List.length_cons] at h2 ⊢
        omega

lemma isAlpha_replaceJ_lower (x : ℕ) :
    isAlphaCode (replaceJ (lowerCode x)) = isAlphaCode x := by
  simp only [isAlphaCode, replaceJ, lowerCode]
  split_ifs <;> rw [decide_eq_decide] <;> omega

lemma length_filter_eq_countP (L : List ℕ) (p : ℕ → Bool) :
    (L.filter p).length = L.countP p := by
  induction L with
  | nil => rfl
  | cons a l ih => by_cases h : p a <;> simp [List.filter_cons, List.countP_cons, h, ih]

lemma playfairNormalize_length (text : List ℕ) :
    (playfairNormalize text).length = (text.filter isAlphaCode).length := by
  rw [playfairNormalize, length_filter_eq_countP, length_filter_eq_countP,
    List.countP_map, List.countP_map]
  exact List.countP_congr (fun x _ => by
    simp only [Function.comp_apply]
    rw [isAlpha_replaceJ_lower])

lemma playfair_encrypt_length (text key : List ℕ) :
    (playfair_encrypt text key).length =
      2 * (playfair_digraphs (playfairNormalize text)).length := by
  rw [playfair_encrypt, List.length_map,
    length_flatMap_const _ _ 2 (fun p _ => playfairPairEnc_length key p)]
  rw [Nat.mul_comm]

-- ---- Playfair beyond ASCII: Latin-1 letters with shifted case pairs ----

/-- `str.lower` extended over the Latin-1 letters whose case map is a
32 shift: codes 65-90 (A-Z) and 192-222 except 215 (A-grave to Thorn,
excluding the times sign) shift up by 32; everything else in this scope
is unchanged. -/
def lowerCodeL (c : ℕ) : ℕ :=
  if (65 ≤ c ∧ c ≤ 90) ∨ (192 ≤ c ∧ c ≤ 222 ∧ c ≠ 215) then c + 32 else c

/-- `str.upper` on the same scope: codes 97-122 (a-z) and 224-254
except 247 (a-grave to thorn, excluding the division sign) shift down
by 32. -/
def upperCodeL (c : ℕ) : ℕ :=
  if (97 ≤ c ∧ c ≤ 122) ∨ (224 ≤ c ∧ c ≤ 254 ∧ c ≠ 247) then c - 32 else c

/-- `str.isalpha` on the same scope: the ASCII letters together with
the Latin-1 letters of the two case ranges above. Python's isalpha
also accepts letters outside this scope (codes 170, 181, 186, 223, 255)
whose case maps are not a 32 shift; they are not modelled and are not
used below. -/
def isAlphaCodeL (c : ℕ) : Bool :=
  (65 ≤ c ∧ c ≤ 90) ∨ (97 ≤ c ∧ c ≤ 122) ∨
    (192 ≤ c ∧ c ≤ 254 ∧ c ≠ 215 ∧ c ≠ 223 ∧ c ≠ 247)

def playfairNormalizeL (text : List ℕ) : List ℕ :=
  ((text.map lowerCodeL).map replaceJ).filter isAlphaCodeL

def tableKeyPartL (key : List ℕ) : List ℕ :=
  ((key.map lowerCodeL).map replaceJ).foldl
    (fun acc c => if isAlphaCodeL c ∧ c ∉ acc then acc ++ [c] else acc) []

/-- The flattened 5x5 table at this scope. The source slices the
collected list as `table[5*i:5*i+5]` for i < 5, so when a non-ASCII key
letter makes the list longer than 25 only the first 25 letters are
kept. -/
def tableCharsL (key : List ℕ) : List ℕ :=
  (tableKeyPartL key ++ playfairAlphabet.filter (fun c => c ∉ tableKeyPartL key)).take 25

def find_positionL (c : ℕ) (key : List ℕ) : ℕ × ℕ :=
  ((tableCharsL key).indexOf (replaceJ (lowerCodeL c)) / 5,
   (tableCharsL key).indexOf (replaceJ (lowerCodeL c)) % 5)

def tableAtL (key : List ℕ) (r c : ℕ) : ℕ := (tableCharsL key).getD (r * 5 + c) 88

def playfairPairEncL (key : List ℕ) (p : ℕ × ℕ) : List ℕ :=
  if (find_positionL p.1 key).1 = (find_positionL p.2 key).1 then
    [tableAtL key (find_positionL p.1 key).1 (((find_positionL p.1 key).2 + 1) % 5),
     tableAtL key (find_positionL p.2 key).1 (((find_positionL p.2 key).2 + 1) % 5)]
  else if (find_positionL p.1 key).2 = (find_positionL p.2 key).2 then
    [tableAtL key (((find_positionL p.1 key).1 + 1) % 5) (find_positionL p.1 key).2,
     tableAtL key (((find_positionL p.2 key).1 + 1) % 5) (find_positionL p.2 key).2]
  else
    [tableAtL key (find_positionL p.1 key).1 (find_positionL p.2 key).2,
     tableAtL key (find_positionL p.2 key).1 (find_positionL p.1 key).2]

def playfair_encryptL (pt key : List ℕ) : List ℕ :=
  ((playfair_digraphs (playfairNormalizeL pt)).flatMap (playfairPairEncL key)).map upperCodeL

/-- Claim C10 counterexample: the claimed invariant fails for a
non-ASCII key. Python's str.isalpha and str.lower are Unicode-aware, so
the key consisting of the single letter code 233 (small e with acute)
is kept by generate_key_table: the key table starts with that letter
(and the letter z falls off the 5x5 slice). Encrypting "DC" then hits
the same-row rule, whose right-shift for 'd' wraps to cell (0,0), and
the result is the codes [201, 68] ("ÉD"): code 201 (capital E with
acute) is outside A-Z. -/
theorem claim_C10_counterexample :
    playfair_encryptL (codes ['D', 'C']) [233] = [201, 68] ∧
    ¬(∀ c ∈ playfair_encryptL (codes ['D', 'C']) [233],
        65 ≤ c ∧ c ≤ 90 ∧ c ≠ 74) := by
  decide

/-- Claim C10 (amended): for every ASCII plaintext and every ASCII key
string, playfair_encrypt returns a string of even length consisting
only of uppercase letters A-Z, never containing 'J' (code 74), and of
length at least the number of alphabetic characters of the input. -/
theorem claim_C10 (text key : List ℕ) (hAscii : ∀ c ∈ text, c < 128)
    (hKey : ∀ c ∈ key, c < 128) :
    2 ∣ (playfair_encrypt text key).length ∧
    (∀ c ∈ playfair_encrypt text key, 65 ≤ c ∧ c ≤ 90 ∧ c ≠ 74) ∧
    (text.filter isAlphaCode).length ≤ (playfair_encrypt text key).length := by
  refine ⟨⟨_, playfair_encrypt_length text key⟩, ?_, ?_⟩
  · intro c hc
    rw [playfair_encrypt] at hc
    rcases List.mem_map.mp hc with ⟨y, hy, rfl⟩
    rcases List.mem_flatMap.mp hy with ⟨p, _, hyp⟩
    rcases mem_playfairPairEnc key p y hyp with ⟨r, col, rfl⟩
    exact upper_tableAt_prop key r col
  · rw [playfair_encrypt_length, ← playfairNormalize_length]
    exact playfair_digraphs_le_aux (playfairNormalize text).length _ (le_refl _)

/-- Witness for claim C10 at text "Hi!" and key "Key". -/
theorem claim_C10_witness :
    (∀ c ∈ codes ['H', 'i', '!'], c < 128) ∧
    (∀ c ∈ codes ['K', 'e', 'y'], c < 128) ∧
    (2 ∣ (playfair_encrypt (codes ['H', 'i', '!']) (codes ['K', 'e', 'y'])).length ∧
     (∀ c ∈ playfair_encrypt (codes ['H', 'i', '!']) (codes ['K', 'e', 'y']),
        65 ≤ c ∧ c ≤ 90 ∧ c ≠ 74) ∧
     ((codes ['H', 'i', '!']).filter isAlphaCode).length ≤
       (playfair_encrypt (codes ['H', 'i', '!']) (codes ['K', 'e', 'y'])).length) :=
  ⟨by decide, by decide,
   claim_C10 (codes ['H', 'i', '!']) (codes ['K', 'e', 'y']) (by decide) (by decide)⟩

-- ---------------- Error paths (claim C9) ----------------

lemma hill_decrypt_none (text : List ℕ) (m00 m01 m10 m11 : ℤ)
    (h : Int.gcd ((m00 * m11 - m01 * m10) % 26) 26 ≠ 1) :
    hill_decrypt text m00 m01 m10 m11 = [] := by
  simp only [hill_decrypt, modInv_none_of_gcd_ne_one h]

lemma colChunk_take (ct : List ℕ) (rows i cols : ℕ) (hi : i < cols) :
    colChunk (ct.take (cols * rows)) rows i = colChunk ct rows i := by
  simp only [colChunk]
  rw [List.drop_take, List.take_take]
  congr 1
  have h1 : (i + 1) * rows ≤ cols * rows := Nat.mul_le_mul_right rows hi
  have h2 : (i + 1) * rows = i * rows + rows := by ring
  omega

lemma colMapOf_take (ct key : List ℕ) (rows : ℕ) :
    colMapOf (ct.take (key.length * rows)) key rows = colMapOf ct key rows := by
  have hl : (keyOrder key).enum.map
        (fun ic => (ic.2.1, colChunk (ct.take (key.length * rows)) rows ic.1)) =
      (keyOrder key).enum.map (fun ic => (ic.2.1, colChunk ct rows ic.1)) := by
    apply List.map_congr_left
    intro ic hic
    have hlt : ic.1 < key.length := by
      rw [List.enum_eq_zip_range] at hic
      have h2 := (List.of_mem_zip hic).1
      have h3 := List.mem_range.mp h2
      rwa [keyOrder_length] at h3
    rw [colChunk_take ct rows ic.1 key.length hlt]
  unfold colMapOf
  rw [hl]

lemma columnar_decrypt_truncates (ct key : List ℕ) (hk : 1 ≤ key.length) :
    columnar_transposition_decrypt ct key =
      columnar_transposition_decrypt
        (ct.take (key.length * (ct.length / key.length))) key := by
  have hN : key.length * (ct.length / key.length) ≤ ct.length :=
    Nat.mul_div_le ct.length key.length
  have hlen : (ct.take (key.length * (ct.length / key.length))).length =
      key.length * (ct.length / key.length) := by
    rw [List.length_take]
    omega
  have hrows : (ct.take (key.length * (ct.length / key.length))).length / key.length =
      ct.length / key.length := by
    rw [hlen]
    exact Nat.mul_div_cancel_left _ (by omega)
  unfold columnar_transposition_decrypt
  rw [hrows, colMapOf_take]

/-- Claim C9 counterexample: failures are signalled by a bare empty
string, indistinguishable from a successful empty result, and columnar
decryption silently truncates instead of rejecting: multiplicative
encryption with the non-coprime key 13 returns "" exactly like the
successful encryption of the empty string with key 1; hill_decrypt with
the singular matrix [[2,4],[1,2]] returns ""; and decrypting a 5-letter
ciphertext with a 2-letter key behaves as if the fifth letter were
absent. -/
theorem claim_C9_counterexample :
    multiplicative_encrypt (codes ['H', 'E', 'L', 'L', 'O']) 13 = [] ∧
    multiplicative_encrypt [] 1 = [] ∧
    hill_decrypt (codes ['A', 'B', 'C', 'D']) 2 4 1 2 = [] ∧
    columnar_transposition_decrypt (codes ['A', 'B', 'C', 'D', 'E'])
        (codes ['B', 'A']) =
      columnar_transposition_decrypt (codes ['A', 'B', 'C', 'D'])
        (codes ['B', 'A']) := by
  decide

/-- Claim C9 (amended): on the error paths the code returns the empty
string rather than a typed error result: multiplicative and affine
encryption and decryption return "" whenever the key (resp. a) is not
coprime to 26; hill_decrypt returns "" whenever the determinant mod 26
is not coprime to 26; and columnar_transposition_decrypt silently
ignores any ciphertext tail beyond the largest multiple of len(key)
instead of rejecting malformed input. -/
theorem claim_C9 :
    (∀ (text : List ℕ) (key : ℤ), Int.gcd key 26 ≠ 1 →
      multiplicative_encrypt text key = [] ∧
        multiplicative_decrypt text key = []) ∧
    (∀ (text : List ℕ) (a b : ℤ), Int.gcd a 26 ≠ 1 →
      affine_encrypt text a b = [] ∧ affine_decrypt text a b = []) ∧
    (∀ (text : List ℕ) (m00 m01 m10 m11 : ℤ),
      Int.gcd ((m00 * m11 - m01 * m10) % 26) 26 ≠ 1 →
      hill_decrypt text m00 m01 m10 m11 = []) ∧
    (∀ (ct key : List ℕ), 1 ≤ key.length →
      columnar_transposition_decrypt ct key =
        columnar_transposition_decrypt
          (ct.take (key.length * (ct.length / key.length))) key) := by
  refine ⟨fun text key h => ⟨?_, ?_⟩, fun text a b h => ⟨?_, ?_⟩,
    fun text m00 m01 m10 m11 h => hill_decrypt_none text m00 m01 m10 m11 h,
    fun ct key hk => columnar_decrypt_truncates ct key hk⟩
  · rw [multiplicative_encrypt, if_pos h]
  · rw [multiplicative_decrypt, if_pos h]
  · rw [affine_encrypt, if_pos h]
  · rw [affine_decrypt, if_pos h]

/-- Witness for claim C9 at concrete inputs: key 13 (multiplicative),
a = 2 (affine), matrix [[2,4],[1,2]] (hill), ciphertext "ABC" with key
"BA" (columnar). -/
theorem claim_C9_witness :
    (Int.gcd (13 : ℤ) 26 ≠ 1 ∧
      multiplicative_encrypt (codes ['A']) 13 = [] ∧
      multiplicative_decrypt (codes ['A']) 13 = []) ∧
    (Int.gcd (2 : ℤ) 26 ≠ 1 ∧
      affine_encrypt (codes ['A']) 2 3 = [] ∧
      affine_decrypt (codes ['A']) 2 3 = []) ∧
    (Int.gcd (((2 : ℤ) * 2 - 4 * 1) % 26) 26 ≠ 1 ∧
      hill_decrypt (codes ['A', 'B']) 2 4 1 2 = []) ∧
    (1 ≤ (codes ['B', 'A']).length ∧
      columnar_transposition_decrypt (codes ['A', 'B', 'C']) (codes ['B', 'A']) =
        columnar_transposition_decrypt
          ((codes ['A', 'B', 'C']).take
            ((codes ['B', 'A']).length *
              ((codes ['A', 'B', 'C']).length / (codes ['B', 'A']).length)))
          (codes ['B', 'A'])) :=
  ⟨⟨by decide, (claim_C9.1 (codes ['A']) 13 (by decide)).1,
     (claim_C9.1 (codes ['A']) 13 (by decide)).2⟩,
   ⟨by decide, (claim_C9.2.1 (codes ['A']) 2 3 (by decide)).1,
     (claim_C9.2.1 (codes ['A']) 2 3 (by decide)).2⟩,
   ⟨by decide, claim_C9.2.2.1 (codes ['A', 'B']) 2 4 1 2 (by decide)⟩,
   ⟨by decide, claim_C9.2.2.2 (codes ['A', 'B', 'C']) (codes ['B', 'A']) (by decide)⟩⟩
